import Mathlib

/-!
DOpE widget library: pixel arithmetic, font metrics, screen creation, string comparison and
the application registry

Shallow embedding of functions from `src/lib/dope_widgets` (`gfx_scr16.cc`, `fontman.cc`,
`dopestd.cc`, `appman.cc`) together with the properties established about them.

Conventions of the embedding:

* C `int` and `s32` values are integers; every arithmetic result that is stored in such a
  variable is reduced to the signed 32-bit range by `wrap_s32`.
* `pixel_t` (`u16`) is `Fin 65536`; the conversion of an `int` expression to `pixel_t` is
  `to_pixel`.
* `>>` on `int` is the arithmetic shift `Int.shiftRight`; `&` and `|` are `Int.land` and
  `Int.lor`.
* A `char const *` argument is `Option (List Int)`: `none` is the null pointer, `some s` points
  at the characters `s` (each already converted to `s32`, as in `(s32)(*str)`), followed by the
  terminating NUL.  A `0` inside `s` terminates the string early, exactly as in memory.
* A function that can read outside an array or call through a null pointer returns an
  `Option`: `none` stands for such an access, after which the C code has no defined result.
-/

namespace Dope

/-! ## Machine integers -/

/-- Reduction of an integer to the signed 32-bit range (two's complement). -/
def wrap_s32 (x : Int) : Int := (x + 2147483648) % 4294967296 - 2147483648

/-- The type `pixel_t` of `gfx_scr16.cc`: `typedef u16 pixel_t`. -/
abbrev pixel_t := Fin 65536

/-- Conversion of an `int` value to `pixel_t` (reduction modulo 2^16). -/
def to_pixel (x : Int) : pixel_t := ⟨(x % 65536).toNat, by omega⟩

/-! ## gfx_scr16.cc: blending -/

/-- Function `blend` of `gfx_scr16.cc`: blend 16bit color with specified alpha value. -/
def blend (color : pixel_t) (alpha : Int) : pixel_t :=
  to_pixel (Int.lor
    (Int.land
      (Int.shiftRight (wrap_s32 (Int.shiftRight alpha 3 * Int.land (color.val : Int) 0xf81f)) 5)
      0xf81f)
    (Int.land (Int.shiftRight (wrap_s32 (alpha * Int.land (color.val : Int) 0x07e0)) 8) 0x7e0))

/-- Function `blend_half` of `gfx_scr16.cc`: dim color by 50 percent. -/
def blend_half (color : pixel_t) : pixel_t :=
  to_pixel (Int.shiftRight (Int.land (color.val : Int) 0xf7de) 1)

/-- Packed RGB565 value with red channel `r` (bits 11..15), green channel `g` (bits 5..10) and
blue channel `b` (bits 0..4). -/
def rgb565 (r g b : Nat) : Nat := r * 2048 + g * 32 + b

/-- Red channel (top five bits) of a 16-bit pixel. -/
def red (p : pixel_t) : Nat := p.val / 2048

/-- Green channel (middle six bits) of a 16-bit pixel. -/
def green (p : pixel_t) : Nat := p.val / 32 % 64

/-- Blue channel (low five bits) of a 16-bit pixel. -/
def blue (p : pixel_t) : Nat := p.val % 32

/-- The expression evaluated by `blend`, over natural numbers. -/
def blend_nat (n a : Nat) : Nat :=
  ((((a >>> 3) * (n &&& 0xf81f)) >>> 5) &&& 0xf81f) ||| (((a * (n &&& 0x7e0)) >>> 8) &&& 0x7e0)

/-! ## fontman.cc: font metrics -/

/-- The fields of `struct font` that the font manager fills in (`add_font`).  Each table has
the 256 entries that `add_font` allocates (`zalloc(256*4)`). -/
structure font where
  font_id : Int
  img_w : Int
  img_h : Int
  top : Int
  bottom : Int
  width_table : Fin 256 → Int
  offset_table : Fin 256 → Int

/-- Function `valid_font_id` of `fontman.cc`: determine whether a font id is valid or not. -/
def valid_font_id (font_id : Int) : Bool := decide (font_id ≥ 0 ∧ font_id ≤ 2)

/-- Slot of the array `fonts[3]` addressed by a valid font id. -/
def font_slot (font_id : Int) (h : valid_font_id font_id = true) : Fin 3 :=
  ⟨font_id.toNat, by simp only [valid_font_id, decide_eq_true_eq] at h; omega⟩

/-- Function `fontman_get_by_id` of `fontman.cc`.  The result `some i` is the pointer
`&fonts[i]`, the result `none` is `NULL`. -/
def fontman_get_by_id (font_id : Int) : Option (Fin 3) :=
  if h : valid_font_id font_id = true then some (font_slot font_id h) else none

/-- The read `table[k]` of a table of 256 entries with an `s32` index: `none` when the index
lies outside the table, where the read is out of bounds. -/
def table_read (table : Fin 256 → Int) (k : Int) : Option Int :=
  if h : 0 ≤ k ∧ k < 256 then some (table ⟨k.toNat, by omega⟩) else none

/-- The `while (*str)` loop of `fontman_calc_str_width`, with the accumulator `result`.  The
result is `none` when a character indexes outside the width table. -/
def calc_str_width_loop (width_table : Fin 256 → Int) : List Int → Int → Option Int
  | [], result => some result
  | c :: str, result =>
    if c = 0 then some result
    else
      match table_read width_table c with
      | some w => calc_str_width_loop width_table str (wrap_s32 (result + w))
      | none => none

/-- Function `fontman_calc_str_width` of `fontman.cc`.  The result is `none` when the function
reads outside a width table. -/
def fontman_calc_str_width (fonts : Fin 3 → font) (font_id : Int) (str : Option (List Int)) :
    Option Int :=
  match str with
  | none => some 0
  | some s =>
    if h : valid_font_id font_id = true then
      calc_str_width_loop (fonts (font_slot font_id h)).width_table s 0
    else some 0

/-- The `while (*str)` loop of `fontman_calc_char_idx`, with the variables `idx` and `pos`.
The result is `none` when a character indexes outside the width table. -/
def calc_char_idx_loop (width_table : Fin 256 → Int) (pixpos : Int) :
    List Int → Int → Int → Option Int
  | [], idx, _ => some idx
  | c :: str, idx, pos =>
    if c = 0 then some idx
    else
      match table_read width_table c with
      | some charw =>
        if pos ≥ wrap_s32 (pixpos - Int.shiftRight charw 1) then some idx
        else calc_char_idx_loop width_table pixpos str (wrap_s32 (idx + 1))
          (wrap_s32 (pos + charw))
      | none => none

/-- Function `fontman_calc_char_idx` of `fontman.cc`: calculate character index of specified
pixel position.  The result is `none` when the function reads outside a width table. -/
def fontman_calc_char_idx (fonts : Fin 3 → font) (font_id : Int) (str : Option (List Int))
    (pixpos : Int) : Option Int :=
  match str with
  | none => some 0
  | some s =>
    if h : valid_font_id font_id = true then
      calc_char_idx_loop (fonts (font_slot font_id h)).width_table pixpos s 0 0
    else some 0

/-- Function `fontman_calc_str_height` of `fontman.cc`. -/
def fontman_calc_str_height (fonts : Fin 3 → font) (font_id : Int) (str : Option (List Int)) :
    Int :=
  match str with
  | none => 0
  | some _ => if h : valid_font_id font_id = true then (fonts (font_slot font_id h)).img_h else 0

/-- The characters of a C string: everything before the first NUL. -/
def c_str (s : List Int) : List Int := s.takeWhile (fun c => decide (c ≠ 0))

/-- Whether a character, converted to `s32`, is an index of a table of 256 entries. -/
abbrev in_table (c : Int) : Prop := 0 ≤ c ∧ c < 256

/-- The width-table entry of a character; 0 for a character that is no index of the table. -/
def width_of (width_table : Fin 256 → Int) (c : Int) : Int := (table_read width_table c).getD 0

/-- Exact (unbounded) sum of the width-table entries of a list of characters. -/
def width_sum (width_table : Fin 256 → Int) (cs : List Int) : Int :=
  (cs.map (width_of width_table)).sum

/-- Horizontal centre of character `i` of `cs`: the widths of the characters before it plus
half of its own width (rounded down). -/
def char_centre (width_table : Fin 256 → Int) (cs : List Int) (i : Nat) : Int :=
  width_sum width_table (cs.take i) + width_of width_table (cs.getD i 0) / 2

/-- Whether an integer is representable as `s32`. -/
abbrev in_s32 (x : Int) : Prop := -2147483648 ≤ x ∧ x < 2147483648

/-- A font in which every character is 16 pixels wide and 16 pixels high. -/
def mono16 : font :=
  { font_id := 1, img_w := 4096, img_h := 16, top := 0, bottom := 16,
    width_table := fun _ => 16, offset_table := fun k => 16 * (k.val : Int) }

/-- A font in which every character is 8 pixels wide. -/
def mono8 : font :=
  { font_id := 1, img_w := 2048, img_h := 16, top := 0, bottom := 16,
    width_table := fun _ => 8, offset_table := fun k => 8 * (k.val : Int) }

/-- A font whose characters are 1073741824 pixels wide. -/
def wide : font :=
  { font_id := 2, img_w := 0, img_h := 16, top := 0, bottom := 16,
    width_table := fun _ => 1073741824, offset_table := fun _ => 0 }

/-! ## gfx_scr16.cc: screen creation -/

/-- The services of the screen driver used by `create`, over a driver state `σ`:
`set_screen` changes the driver state, the `get_` services read it. -/
structure scrdrv_services (σ : Type) where
  set_screen : σ → Int → Int → Int → σ
  get_scr_width : σ → Int
  get_scr_height : σ → Int
  get_scr_depth : σ → Int
  get_buf_adr : σ → Nat

/-- The service of the clipping module used by `create`, over a clipping state `κ`. -/
structure clipping_services (κ : Type) where
  set_range : κ → Int → Int → Int → Int → κ

/-- Module variables written by `create`, together with the state of the clipping module. -/
structure gfx_state (κ : Type) where
  scr_adr : Nat
  scr_width : Int
  scr_height : Int
  scr_type : Int
  clip : κ

/-- Function `create` of `gfx_scr16.cc`.  The first component of the result is the returned
pointer (`0` is `NULL`); the others are the module state and the driver state afterwards.
`GFX_IMG_TYPE_RGB16` is the value of that enumerator.  The argument `handler` is unused by
the function and left out. -/
def create {σ κ : Type} (scrdrv : scrdrv_services σ) (clip : clipping_services κ)
    (GFX_IMG_TYPE_RGB16 : Int) (width height : Int) (st : gfx_state κ) (drv : σ) :
    Nat × gfx_state κ × σ :=
  let drv1 := scrdrv.set_screen drv width height 16
  let st1 : gfx_state κ :=
    { st with
      scr_adr := scrdrv.get_buf_adr drv1
      scr_width := scrdrv.get_scr_width drv1
      scr_height := scrdrv.get_scr_height drv1 }
  if scrdrv.get_scr_depth drv1 = 16 then
    let st2 : gfx_state κ := { st1 with scr_type := GFX_IMG_TYPE_RGB16 }
    (1, { st2 with
          clip := clip.set_range st2.clip 0 0 (wrap_s32 (st2.scr_width - 1))
            (wrap_s32 (st2.scr_height - 1)) }, drv1)
  else (0, st1, drv1)

/-! ## dopestd.cc: string comparison -/

/-- The `for` loop of `streq` and the statements after it: `k` bounds the iterations that are
still possible, `i` is the loop counter, `s1` and `s2` are the advanced pointers.  As
`i < max_s1` holds before every `i++`, the counter never leaves the range of `int`. -/
def streq_loop (max_s1 : Int) : Nat → Int → List Int → List Int → Int
  | 0, i, _, s2 => if i = max_s1 ∧ s2.headD 0 = 0 then 1 else 0
  | k + 1, i, s1, s2 =>
    if i < max_s1 then
      if s1.headD 0 ≠ s2.headD 0 then 0
      else if s1.headD 0 = 0 ∧ s2.headD 0 = 0 then 1
      else streq_loop max_s1 k (i + 1) s1.tail s2.tail
    else if i = max_s1 ∧ s2.headD 0 = 0 then 1 else 0

/-- Function `streq` of `dopestd.cc`: determines if two strings are equal. -/
def streq (s1 s2 : Option (List Int)) (max_s1 : Int) : Int :=
  match s1, s2 with
  | some a, some b => streq_loop max_s1 max_s1.toNat 0 a b
  | _, _ => 0

/-! ## appman.cc: application manager -/

/-- Conversion of an `s32` argument to `u32`. -/
def to_u32 (x : Int) : Nat := (x % 4294967296).toNat

/-- The field `char name[APP_NAMELEN]` of `struct app`: 64 characters. -/
abbrev name_buf := {l : List Int // l.length = 64}

/-- Assignment `name[i] = c`. -/
def name_buf.put (b : name_buf) (i : Nat) (c : Int) : name_buf :=
  ⟨b.val.set i c, by rw [List.length_set]; exact b.property⟩

/-- The record `struct app` of `appman.cc`; pointers are addresses, `0` is `NULL`. -/
structure app where
  name : name_buf
  rootscope : Nat
  listener : Nat

/-- The array `static struct app *apps[MAX_APPS]`: `none` is a null entry. -/
abbrev app_table := Fin 64 → Option app

/-- Value of `apps[i]`. -/
def apps_at (apps : app_table) (i : Nat) : Option app :=
  if h : i < 64 then apps ⟨i, h⟩ else none

/-- Assignment `apps[i] = v`. -/
def set_slot (apps : app_table) (i : Nat) (v : Option app) : app_table :=
  fun j => if j.val = i then v else apps j

/-- The loop of `get_free_app_id` from counter `i` on, with at most `k` iterations left. -/
def get_free_app_id_loop (apps : app_table) : Nat → Nat → Int
  | 0, _ => -1
  | k + 1, i =>
    if i < 64 then
      if (apps_at apps i).isNone then (i : Int) else get_free_app_id_loop apps k (i + 1)
    else -1

/-- Function `get_free_app_id` of `appman.cc`: return the first free application id. -/
def get_free_app_id (apps : app_table) : Int := get_free_app_id_loop apps 63 1

/-- Function `new_app` of `appman.cc`; `mem` tells whether `zalloc` succeeds.  The new record
is zero-filled. -/
def new_app (mem : Bool) : Option app :=
  if mem then some { name := ⟨List.replicate 64 0, List.length_replicate 64 0⟩,
                     rootscope := 0, listener := 0 }
  else none

/-- The copy loop of `set_app_name` from counter `i` on, with at most `k` iterations left. -/
def set_app_name_loop (appname : List Int) : Nat → Nat → name_buf → name_buf
  | 0, _, name => name
  | k + 1, i, name =>
    if appname.getD i 0 = 0 then name.put i (appname.getD i 0)
    else set_app_name_loop appname k (i + 1) (name.put i (appname.getD i 0))

/-- Function `set_app_name` of `appman.cc`: set the identifier string of an application.  The
result is the record that `app` points to afterwards. -/
def set_app_name (a : Option app) (appname : Option (List Int)) : Option app :=
  match a, appname with
  | some r, some n => some { r with name := (set_app_name_loop n 64 0 r.name).put 63 0 }
  | _, _ => a

/-- Function `app_id_valid` of `appman.cc`: test if an app_id is a valid one. -/
def app_id_valid (apps : app_table) (app_id : Nat) : Bool :=
  if app_id ≥ 64 then false
  else if (apps_at apps app_id).isNone then false
  else true

/-- Function `get_app_name` of `appman.cc`: the string that the returned pointer points to. -/
def get_app_name (apps : app_table) (app_id : Int) : Option (List Int) :=
  if app_id_valid apps (to_u32 app_id) = false then some []
  else
    match apps_at apps (to_u32 app_id) with
    | some a => some a.name.val
    | none => some []

/-- Function `register_app` of `appman.cc`: the returned id and the array afterwards. -/
def register_app (apps : app_table) (mem : Bool) (app_name : Option (List Int)) :
    Int × app_table :=
  let newapp_id := get_free_app_id apps
  if newapp_id < 0 then (-1, apps)
  else
    let apps1 := set_slot apps newapp_id.toNat (new_app mem)
    if (apps_at apps1 newapp_id.toNat).isNone then (-1, apps1)
    else
      (newapp_id,
        set_slot apps1 newapp_id.toNat (set_app_name (apps_at apps1 newapp_id.toNat) app_name))

/-- The methods called on the current screen and on a root scope, over a state `ω` of the
widgets; the first argument after the state is the (non-null) object the method is called
on. -/
structure widget_services (ω : Type) where
  lock : ω → Nat → ω
  unlock : ω → Nat → ω
  inc_ref : ω → Nat → ω
  dec_ref : ω → Nat → ω
  set_var : ω → Nat → Nat → ω

/-- Function `unregister_app` of `appman.cc`: the returned value, the array and the widget
state afterwards.  For a valid id the function calls `curr_scr->gen->lock` without testing
`curr_scr`: the result is `none` when `curr_scr` is null.  The record is freed and its slot
becomes null, so the assignment `app->listener = NULL` made just before leaves no trace. -/
def unregister_app {ω : Type} (ws : widget_services ω) (curr_scr : Nat) (apps : app_table)
    (w : ω) (app_id : Nat) : Option (Int × app_table × ω) :=
  if app_id_valid apps app_id = false then some (-1, apps, w)
  else
    match apps_at apps app_id with
    | none => some (-1, apps, w)
    | some a =>
      if curr_scr = 0 then none
      else
        let w1 := ws.lock w curr_scr
        let w2 := if a.rootscope ≠ 0 then ws.dec_ref w1 a.rootscope else w1
        some (0, set_slot apps app_id none, ws.unlock w2 curr_scr)

/-- Function `set_rootscope` of `appman.cc`: define root scope of an application. -/
def set_rootscope {ω : Type} (ws : widget_services ω) (curr_scr : Nat) (apps : app_table)
    (w : ω) (app_id : Nat) (rootscope : Nat) : app_table × ω :=
  if app_id_valid apps app_id = false ∨ rootscope = 0 then (apps, w)
  else
    match apps_at apps app_id with
    | none => (apps, w)
    | some a =>
      let w1 := if curr_scr ≠ 0 then ws.inc_ref w curr_scr else w
      (set_slot apps app_id (some { a with rootscope := rootscope }),
        ws.set_var w1 rootscope curr_scr)

/-- Function `get_rootscope` of `appman.cc`: request root scope of an application. -/
def get_rootscope (apps : app_table) (app_id : Nat) : Nat :=
  if app_id_valid apps app_id = false then 0
  else
    match apps_at apps app_id with
    | some a => a.rootscope
    | none => 0

/-- Function `reg_listener` of `appman.cc`: register event listener of an application. -/
def reg_listener (apps : app_table) (app_id : Int) (listener : Nat) : app_table :=
  if app_id_valid apps (to_u32 app_id) = false then apps
  else
    match apps_at apps (to_u32 app_id) with
    | some a => set_slot apps (to_u32 app_id) (some { a with listener := listener })
    | none => apps

/-- Function `get_listener` of `appman.cc`: request event listener of an application. -/
def get_listener (apps : app_table) (app_id : Int) : Nat :=
  if app_id_valid apps (to_u32 app_id) = false then 0
  else
    match apps_at apps (to_u32 app_id) with
    | some a => a.listener
    | none => 0

/-- The loop of `app_id_of_name` from counter `i` on, with at most `k` iterations left. -/
def app_id_of_name_loop (apps : app_table) (app_name : Option (List Int)) : Nat → Nat → Int
  | 0, _ => -1
  | k + 1, i =>
    if i < 64 then
      match apps_at apps i with
      | some a =>
        if streq app_name (some a.name.val) 255 ≠ 0 then (i : Int)
        else app_id_of_name_loop apps app_name k (i + 1)
      | none => app_id_of_name_loop apps app_name k (i + 1)
    else -1

/-- Function `app_id_of_name` of `appman.cc`: resolve application id by its name. -/
def app_id_of_name (apps : app_table) (app_name : Option (List Int)) : Int :=
  app_id_of_name_loop apps app_name 63 1

/-- The array with no application registered. -/
def no_apps : app_table := fun _ => none

/-- An array in which every slot holds a zero-filled record. -/
def full_apps : app_table := fun _ => new_app true

/-- Widget methods that leave the (trivial) widget state alone. -/
def idle_widgets : widget_services Unit :=
  { lock := fun w _ => w, unlock := fun w _ => w, inc_ref := fun w _ => w,
    dec_ref := fun w _ => w, set_var := fun w _ _ => w }

/-! ## Machine-integer lemmas -/

theorem wrap_s32_of_range (x : Int) (h0 : -2147483648 ≤ x) (h1 : x < 2147483648) :
    wrap_s32 x = x := by
  unfold wrap_s32; omega

theorem wrap_s32_add_left (x y : Int) : wrap_s32 (wrap_s32 x + y) = wrap_s32 (x + y) := by
  unfold wrap_s32; omega

theorem land_natCast (a b : Nat) : Int.land (a : Int) (b : Int) = ((a &&& b : Nat) : Int) := rfl

theorem lor_natCast (a b : Nat) : Int.lor (a : Int) (b : Int) = ((a ||| b : Nat) : Int) := rfl

theorem shiftRight_natCast (a k : Nat) :
    Int.shiftRight (a : Int) k = ((a >>> k : Nat) : Int) := rfl

theorem shiftRight_one (x : Int) : Int.shiftRight x 1 = x / 2 :=
  (Int.shiftRight_eq_div_pow x 1).trans (by norm_num)

theorem to_pixel_natCast (v : Nat) (h : v < 65536) : (to_pixel (v : Int)).val = v := by
  unfold to_pixel
  simp only []
  omega

/-! ## Bit masks of the RGB565 layout -/

theorem land_lor_right (x y z : Nat) : (x ||| y) &&& z = (x &&& z) ||| (y &&& z) := by
  rw [Nat.and_comm, Nat.and_or_distrib_left, Nat.and_comm z x, Nat.and_comm z y]

theorem rb_mask_hi : ∀ r < 32, (2 ^ 11 * r) &&& 0xf81f = 2 ^ 11 * r := by decide

theorem rb_mask_mid : ∀ g < 64, (2 ^ 5 * g) &&& 0xf81f = 0 := by decide

theorem rb_mask_lo : ∀ b < 32, b &&& 0xf81f = b := by decide

theorem rb_mask_six : ∀ q < 32, (2 ^ 6 * q) &&& 0xf81f = 0 := by decide

theorem g_mask_hi : ∀ r < 32, (2 ^ 11 * r) &&& 0x7e0 = 0 := by decide

theorem g_mask_mid : ∀ g < 64, (2 ^ 5 * g) &&& 0x7e0 = 2 ^ 5 * g := by decide

theorem g_mask_lo : ∀ b < 32, b &&& 0x7e0 = 0 := by decide

theorem half_mask_hi : ∀ r < 32, (2 ^ 11 * r) &&& 0xf7de = 2 ^ 11 * (r / 2 * 2) := by decide

theorem half_mask_mid : ∀ g < 64, (2 ^ 5 * g) &&& 0xf7de = 2 ^ 5 * (g / 2 * 2) := by decide

theorem half_mask_lo : ∀ b < 32, b &&& 0xf7de = b / 2 * 2 := by decide

theorem rgb565_as_or (r g b : Nat) (hg : g < 64) (hb : b < 32) :
    rgb565 r g b = (2 ^ 11 * r) ||| ((2 ^ 5 * g) ||| b) := by
  have h1 : 2 ^ 5 * g + b = 2 ^ 5 * g ||| b := Nat.mul_add_lt_is_or (by simpa using hb) g
  have h2 : 2 ^ 11 * r + (2 ^ 5 * g + b) = 2 ^ 11 * r ||| (2 ^ 5 * g + b) :=
    Nat.mul_add_lt_is_or (by norm_num; omega) r
  rw [← h1, ← h2]; unfold rgb565; omega

theorem rgb565_land_rb (r g b : Nat) (hr : r < 32) (hg : g < 64) (hb : b < 32) :
    rgb565 r g b &&& 0xf81f = r * 2048 + b := by
  rw [rgb565_as_or r g b hg hb, land_lor_right, land_lor_right, rb_mask_hi r hr,
    rb_mask_mid g hg, rb_mask_lo b hb, Nat.zero_or,
    ← Nat.mul_add_lt_is_or (by norm_num; omega) r]
  omega

theorem rgb565_land_g (r g b : Nat) (hr : r < 32) (hg : g < 64) (hb : b < 32) :
    rgb565 r g b &&& 0x7e0 = g * 32 := by
  rw [rgb565_as_or r g b hg hb, land_lor_right, land_lor_right,
    g_mask_hi r hr, g_mask_mid g hg, g_mask_lo b hb, Nat.zero_or, Nat.or_zero]
  omega

theorem rgb565_land_half (r g b : Nat) (hr : r < 32) (hg : g < 64) (hb : b < 32) :
    rgb565 r g b &&& 0xf7de = rgb565 (r / 2 * 2) (g / 2 * 2) (b / 2 * 2) := by
  rw [rgb565_as_or r g b hg hb, land_lor_right, land_lor_right, half_mask_hi r hr,
    half_mask_mid g hg, half_mask_lo b hb,
    ← rgb565_as_or (r / 2 * 2) (g / 2 * 2) (b / 2 * 2) (by omega) (by omega)]

theorem rb_scaled_mask (p q : Nat) (hp : p < 1024) (hq : q < 32) :
    (p * 64 + q) &&& 0xf81f = (p / 32) * 2048 + q := by
  have e : p * 64 + q = 2 ^ 11 * (p / 32) ||| (2 ^ 6 * (p % 32) ||| q) := by
    rw [← Nat.mul_add_lt_is_or (by norm_num; omega) (p % 32),
      ← Nat.mul_add_lt_is_or (by norm_num; omega) (p / 32)]
    omega
  rw [e, land_lor_right, land_lor_right, rb_mask_hi _ (by omega),
    rb_mask_six _ (by omega), rb_mask_lo q hq, Nat.zero_or,
    ← Nat.mul_add_lt_is_or (by norm_num; omega) (p / 32)]
  omega

theorem g_scaled_mask (u : Nat) (hu : u < 2048) : u &&& 0x7e0 = (u / 32) * 32 := by
  have e : u = 2 ^ 5 * (u / 32) ||| u % 32 := by
    rw [← Nat.mul_add_lt_is_or (by norm_num; omega) (u / 32)]
    omega
  have h : (2 ^ 5 * (u / 32) ||| u % 32) &&& 0x7e0 = 2 ^ 5 * (u / 32) := by
    rw [land_lor_right, g_mask_mid _ (by omega), g_mask_lo _ (by omega), Nat.or_zero]
  rw [← e] at h
  omega

theorem lor_channels (R G B : Nat) (hG : G < 64) (hB : B < 32) :
    (R * 2048 + B) ||| (G * 32) = rgb565 R G B := by
  have e1 : R * 2048 + B = 2 ^ 11 * R ||| B := by
    rw [← Nat.mul_add_lt_is_or (by norm_num; omega) R]; omega
  have e2 : G * 32 = 2 ^ 5 * G := by omega
  rw [rgb565_as_or R G B hG hB, e1, e2, Nat.or_assoc, Nat.or_comm B]

/-! ## Pixels and their channels -/

theorem rgb565_channels (p : pixel_t) : p.val = rgb565 (red p) (green p) (blue p) := by
  have := p.isLt
  unfold rgb565 red green blue; omega

theorem red_lt (p : pixel_t) : red p < 32 := by
  have := p.isLt
  unfold red; omega

theorem green_lt (p : pixel_t) : green p < 64 := by
  unfold green; omega

theorem blue_lt (p : pixel_t) : blue p < 32 := by
  unfold blue; omega

theorem channels_of_rgb565 (p : pixel_t) (r g b : Nat) (hg : g < 64) (hb : b < 32)
    (h : p.val = rgb565 r g b) : red p = r ∧ green p = g ∧ blue p = b := by
  unfold red green blue
  unfold rgb565 at h
  omega

/-! ## blend -/

theorem blend_nat_lt (n a : Nat) : blend_nat n a < 65536 := by
  unfold blend_nat
  have h1 : ((((a >>> 3) * (n &&& 0xf81f)) >>> 5) &&& 0xf81f) ≤ 0xf81f := Nat.and_le_right
  have h2 : (((a * (n &&& 0x7e0)) >>> 8) &&& 0x7e0) ≤ 0x7e0 := Nat.and_le_right
  exact Nat.or_lt_two_pow (n := 16) (by omega) (by omega)

theorem blend_val (c : pixel_t) (a : Nat) (ha : a ≤ 255) :
    (blend c (a : Int)).val = blend_nat c.val a := by
  have m1 : c.val &&& 0xf81f ≤ 0xf81f := Nat.and_le_right
  have m2 : c.val &&& 0x7e0 ≤ 0x7e0 := Nat.and_le_right
  have s1 : a >>> 3 ≤ 31 := by rw [Nat.shiftRight_eq_div_pow]; omega
  have p1 : (a >>> 3) * (c.val &&& 0xf81f) ≤ 31 * 0xf81f := Nat.mul_le_mul s1 m1
  have p2 : a * (c.val &&& 0x7e0) ≤ 255 * 0x7e0 := Nat.mul_le_mul ha m2
  have e1 : Int.shiftRight (a : Int) 3 * Int.land (c.val : Int) 0xf81f
      = (((a >>> 3) * (c.val &&& 0xf81f) : Nat) : Int) := by
    rw [shiftRight_natCast, show (0xf81f : Int) = ((0xf81f : Nat) : Int) from rfl, land_natCast]
    push_cast; rfl
  have e2 : (a : Int) * Int.land (c.val : Int) 0x07e0
      = ((a * (c.val &&& 0x7e0) : Nat) : Int) := by
    rw [show (0x07e0 : Int) = ((0x7e0 : Nat) : Int) from rfl, land_natCast]
    push_cast; rfl
  unfold blend
  rw [e1, e2, wrap_s32_of_range _ (by omega) (by omega), wrap_s32_of_range _ (by omega) (by omega),
    shiftRight_natCast, shiftRight_natCast,
    show (0xf81f : Int) = ((0xf81f : Nat) : Int) from rfl,
    show (0x7e0 : Int) = ((0x7e0 : Nat) : Int) from rfl, land_natCast, land_natCast, lor_natCast]
  exact to_pixel_natCast _ (blend_nat_lt c.val a)

theorem blend_nat_rgb565 (r g b a : Nat) (hr : r < 32) (hg : g < 64) (hb : b < 32)
    (ha : a ≤ 255) :
    blend_nat (rgb565 r g b) a
      = rgb565 ((a / 8 * r) / 32) ((a * g) / 256) ((a / 8 * b) / 32) := by
  have hp : a / 8 * r ≤ 31 * 31 := Nat.mul_le_mul (by omega) (by omega)
  have hq : a / 8 * b ≤ 31 * 31 := Nat.mul_le_mul (by omega) (by omega)
  have ht : a * g ≤ 255 * 63 := Nat.mul_le_mul ha (by omega)
  have x1 : (a / 8 * (r * 2048 + b)) / 32 = (a / 8 * r) * 64 + (a / 8 * b) / 32 := by
    rw [Nat.mul_add, ← Nat.mul_assoc]; omega
  have x2 : (a * (g * 32)) / 256 = (a * g) / 8 := by
    rw [← Nat.mul_assoc]; omega
  unfold blend_nat
  rw [rgb565_land_rb r g b hr hg hb, rgb565_land_g r g b hr hg hb, Nat.shiftRight_eq_div_pow,
    Nat.shiftRight_eq_div_pow, Nat.shiftRight_eq_div_pow]
  rw [show (2 : Nat) ^ 3 = 8 from rfl, show (2 : Nat) ^ 5 = 32 from rfl,
    show (2 : Nat) ^ 8 = 256 from rfl, x1, x2,
    rb_scaled_mask _ _ (by omega) (by omega), g_scaled_mask _ (by omega)]
  have y : (a * g) / 8 / 32 = (a * g) / 256 := by omega
  rw [y]
  exact lor_channels _ _ _ (by omega) (by omega)

/-- Channels of a blended pixel, for an opacity `a` in `0..255`, over natural numbers. -/
theorem blend_channels_nat (c : pixel_t) (a : Nat) (ha : a ≤ 255) :
    red (blend c (a : Int)) = (a / 8 * red c) / 32
    ∧ green (blend c (a : Int)) = (a * green c) / 256
    ∧ blue (blend c (a : Int)) = (a / 8 * blue c) / 32 := by
  have hr := red_lt c
  have hg := green_lt c
  have hb := blue_lt c
  have hq : a / 8 * blue c ≤ 31 * 31 := Nat.mul_le_mul (by omega) (by omega)
  have ht : a * green c ≤ 255 * 63 := Nat.mul_le_mul ha (by omega)
  have v : (blend c (a : Int)).val
      = rgb565 ((a / 8 * red c) / 32) ((a * green c) / 256) ((a / 8 * blue c) / 32) := by
    rw [blend_val c a ha]
    conv_lhs => rw [rgb565_channels c]
    exact blend_nat_rgb565 _ _ _ a hr hg hb ha
  exact channels_of_rgb565 _ _ _ _ (by omega) (by omega) v

theorem pixel_ext (p q : pixel_t) (hr : red p = red q) (hg : green p = green q)
    (hb : blue p = blue q) : p = q := by
  apply Fin.ext
  rw [rgb565_channels p, rgb565_channels q, hr, hg, hb]

theorem blend_half_val (c : pixel_t) :
    (blend_half c).val = (c.val &&& 0xf7de) >>> 1 := by
  have m : c.val &&& 0xf7de ≤ 0xf7de := Nat.and_le_right
  have s : (c.val &&& 0xf7de) >>> 1 ≤ c.val &&& 0xf7de := by
    rw [Nat.shiftRight_eq_div_pow]; exact Nat.div_le_self _ _
  unfold blend_half
  rw [show (0xf7de : Int) = ((0xf7de : Nat) : Int) from rfl, land_natCast, shiftRight_natCast]
  exact to_pixel_natCast _ (by omega)

theorem blend_half_channels (c : pixel_t) :
    red (blend_half c) = red c / 2 ∧ green (blend_half c) = green c / 2
    ∧ blue (blend_half c) = blue c / 2 := by
  have hr := red_lt c
  have hg := green_lt c
  have hb := blue_lt c
  have v : (blend_half c).val = rgb565 (red c / 2) (green c / 2) (blue c / 2) := by
    rw [blend_half_val c]
    conv_lhs => rw [rgb565_channels c]
    rw [rgb565_land_half _ _ _ hr hg hb, Nat.shiftRight_eq_div_pow]
    unfold rgb565
    omega
  exact channels_of_rgb565 _ _ _ _ (by omega) (by omega) v

/-! ## Claims about blend and blend_half -/

/-- C1: for every 16-bit colour and every alpha in 0..255, `blend` scales each RGB565 channel
on its own: the red, green and blue channels of the result are `((alpha>>3)*r) >> 5`,
`(alpha*g) >> 8` and `((alpha>>3)*b) >> 5` for the channels `r`, `g`, `b` of the colour.
As a pixel is determined by its three channels, nothing leaks from one channel into
another. -/
theorem blend_channels (c : pixel_t) (alpha : Int) (h0 : 0 ≤ alpha) (h1 : alpha ≤ 255) :
    ((red (blend c alpha) : Nat) : Int)
        = Int.shiftRight (Int.shiftRight alpha 3 * (red c : Nat)) 5
    ∧ ((green (blend c alpha) : Nat) : Int) = Int.shiftRight (alpha * (green c : Nat)) 8
    ∧ ((blue (blend c alpha) : Nat) : Int)
        = Int.shiftRight (Int.shiftRight alpha 3 * (blue c : Nat)) 5 := by
  obtain ⟨a, rfl⟩ := Int.eq_ofNat_of_zero_le h0
  have ha : a ≤ 255 := by omega
  obtain ⟨er, eg, eb⟩ := blend_channels_nat c a ha
  rw [er, eg, eb]
  simp only [shiftRight_natCast, ← Nat.cast_mul, Nat.shiftRight_eq_div_pow]
  norm_num

/-- Witness for C1 at the colour 0xABCD and alpha 200. -/
theorem blend_channels_witness :
    ((red (blend 0xabcd 200) : Nat) : Int)
        = Int.shiftRight (Int.shiftRight 200 3 * (red 0xabcd : Nat)) 5
    ∧ ((green (blend 0xabcd 200) : Nat) : Int)
        = Int.shiftRight (200 * (green 0xabcd : Nat)) 8
    ∧ ((blue (blend 0xabcd 200) : Nat) : Int)
        = Int.shiftRight (Int.shiftRight 200 3 * (blue 0xabcd : Nat)) 5 :=
  blend_channels 0xabcd 200 (by decide) (by decide)

/-- C2, as stated, fails: blending white (0xFFFF) at alpha 255 gives 0xF7DE, not 0xFFFF. -/
theorem blend_full_opacity_counterexample : blend 0xffff 255 ≠ 0xffff := by decide

/-- C2, amended: at alpha 255 every non-zero channel of the colour is lowered by exactly one
and a zero channel stays zero (the channel factors are 31/32 and 255/256), so that
`blend(c, 255) == c` holds exactly for `c == 0`. -/
theorem blend_full_opacity (c : pixel_t) :
    red (blend c 255) = red c - 1 ∧ green (blend c 255) = green c - 1
    ∧ blue (blend c 255) = blue c - 1 ∧ (blend c 255 = c ↔ c = 0) := by
  have hr := red_lt c
  have hg := green_lt c
  have hb := blue_lt c
  obtain ⟨er, eg, eb⟩ := blend_channels_nat c 255 (by omega)
  have er2 : red (blend c 255) = red c - 1 := by
    have : red (blend c ((255 : Nat) : Int)) = red c - 1 := by rw [er]; omega
    exact this
  have eg2 : green (blend c 255) = green c - 1 := by
    have : green (blend c ((255 : Nat) : Int)) = green c - 1 := by rw [eg]; omega
    exact this
  have eb2 : blue (blend c 255) = blue c - 1 := by
    have : blue (blend c ((255 : Nat) : Int)) = blue c - 1 := by rw [eb]; omega
    exact this
  refine ⟨er2, eg2, eb2, ?_, ?_⟩
  · intro h
    rw [h] at er2 eg2 eb2
    apply Fin.ext
    rw [rgb565_channels c]
    have z : ((0 : pixel_t) : Nat) = 0 := rfl
    rw [z]
    unfold rgb565
    omega
  · intro h
    subst h
    decide

/-- C3: blending any 16-bit colour at alpha 0 gives the pixel 0. -/
theorem blend_zero_alpha (c : pixel_t) : blend c 0 = 0 := by
  obtain ⟨er, eg, eb⟩ := blend_channels_nat c 0 (by omega)
  apply pixel_ext
  · have : red (blend c ((0 : Nat) : Int)) = red 0 := by rw [er]; simp [red]
    exact this
  · have : green (blend c ((0 : Nat) : Int)) = green 0 := by rw [eg]; simp [green]
    exact this
  · have : blue (blend c ((0 : Nat) : Int)) = blue 0 := by rw [eb]; simp [blue]
    exact this

/-- C4: `blend_half` computes `(color & 0xF7DE) >> 1`, and the result has exactly the halved
channels `r div 2`, `g div 2`, `b div 2` of the colour, no bit moving into a neighbouring
channel; in particular `blend_half(0xFFFF) == 0x7BEF`. -/
theorem blend_half_halves_channels (c : pixel_t) :
    (blend_half c).val = (c.val &&& 0xf7de) >>> 1
    ∧ red (blend_half c) = red c / 2 ∧ green (blend_half c) = green c / 2
    ∧ blue (blend_half c) = blue c / 2
    ∧ (blend_half c).val = rgb565 (red c / 2) (green c / 2) (blue c / 2)
    ∧ blend_half 0xffff = 0x7bef := by
  obtain ⟨er, eg, eb⟩ := blend_half_channels c
  refine ⟨blend_half_val c, er, eg, eb, ?_, by decide⟩
  rw [rgb565_channels (blend_half c), er, eg, eb]

/-! ## fontman.cc: helper lemmas -/

theorem c_str_nil : c_str [] = [] := rfl

theorem c_str_cons_zero (t : List Int) : c_str (0 :: t) = [] := by
  simp [c_str]

theorem c_str_cons_ne (c : Int) (t : List Int) (h : c ≠ 0) : c_str (c :: t) = c :: c_str t := by
  simp [c_str, List.takeWhile_cons, h]

theorem c_str_replicate (n : Nat) (c : Int) (h : c ≠ 0) :
    c_str (List.replicate n c) = List.replicate n c := by
  induction n with
  | zero => rfl
  | succ n ih => rw [List.replicate_succ, c_str_cons_ne c _ h, ih]

theorem table_read_in (wt : Fin 256 → Int) (c : Int) (h : in_table c) :
    table_read wt c = some (width_of wt c) := by
  simp [width_of, table_read, h.1, h.2]

theorem width_of_nonneg (wt : Fin 256 → Int) (hnn : ∀ k : Fin 256, 0 ≤ wt k) (c : Int) :
    0 ≤ width_of wt c := by
  unfold width_of table_read
  by_cases h : 0 ≤ c ∧ c < 256
  · simp only [h, and_self, dite_true, Option.getD_some]
    exact hnn _
  · simp [h]

theorem width_sum_nil (wt : Fin 256 → Int) : width_sum wt [] = 0 := rfl

theorem width_sum_cons (wt : Fin 256 → Int) (c : Int) (t : List Int) :
    width_sum wt (c :: t) = width_of wt c + width_sum wt t := by
  simp [width_sum]

theorem width_sum_replicate (wt : Fin 256 → Int) (n : Nat) (c : Int) :
    width_sum wt (List.replicate n c) = (n : Int) * width_of wt c := by
  induction n with
  | zero => simp [width_sum]
  | succ n ih => rw [List.replicate_succ, width_sum_cons, ih]; push_cast; ring

theorem width_sum_nonneg (wt : Fin 256 → Int) (hnn : ∀ k : Fin 256, 0 ≤ wt k)
    (cs : List Int) : 0 ≤ width_sum wt cs := by
  induction cs with
  | nil => simp [width_sum]
  | cons c t ih => rw [width_sum_cons]; have := width_of_nonneg wt hnn c; omega

theorem char_centre_zero (wt : Fin 256 → Int) (c : Int) (cs : List Int) :
    char_centre wt (c :: cs) 0 = width_of wt c / 2 := by
  simp [char_centre, width_sum]

theorem char_centre_succ (wt : Fin 256 → Int) (c : Int) (cs : List Int) (j : Nat) :
    char_centre wt (c :: cs) (j + 1) = width_of wt c + char_centre wt cs j := by
  simp only [char_centre, List.take_succ_cons, width_sum_cons, List.getD_cons_succ]
  omega

theorem valid_font_id_fin (i : Fin 3) : valid_font_id (i.val : Int) = true := by
  have := i.isLt
  simp only [valid_font_id, decide_eq_true_eq]
  omega

theorem valid_font_id_outside (font_id : Int) (h : font_id < 0 ∨ 2 < font_id) :
    valid_font_id font_id = false := by
  simp only [valid_font_id, decide_eq_false_iff_not]
  omega

theorem font_slot_fin (i : Fin 3) (h : valid_font_id (i.val : Int) = true) :
    font_slot (i.val : Int) h = i := by
  apply Fin.ext
  simp [font_slot]

theorem calc_str_width_loop_wrap (wt : Fin 256 → Int) (s : List Int) :
    (∀ c ∈ c_str s, in_table c) →
    ∀ x : Int, calc_str_width_loop wt s (wrap_s32 x)
      = some (wrap_s32 (x + width_sum wt (c_str s))) := by
  induction s with
  | nil => intro _ x; simp [calc_str_width_loop, c_str, width_sum]
  | cons c t ih =>
    intro hidx x
    by_cases hc : c = 0
    · subst hc
      simp [calc_str_width_loop, c_str_cons_zero, width_sum]
    · rw [c_str_cons_ne c t hc] at hidx ⊢
      rw [width_sum_cons]
      have hr := table_read_in wt c (hidx c (List.mem_cons_self c _))
      simp only [calc_str_width_loop, hc, if_false, hr]
      rw [wrap_s32_add_left, ih (fun c2 h2 => hidx c2 (List.mem_cons_of_mem _ h2)) _,
        Int.add_assoc]

/-- When every character of the text indexes inside the width table, the result of
`fontman_calc_str_width` is the exact width sum reduced to the `s32` range. -/
theorem fontman_calc_str_width_wrap (fonts : Fin 3 → font) (i : Fin 3) (s : List Int)
    (hidx : ∀ c ∈ c_str s, in_table c) :
    fontman_calc_str_width fonts (i.val : Int) (some s)
      = some (wrap_s32 (width_sum (fonts i).width_table (c_str s))) := by
  have hv := valid_font_id_fin i
  simp only [fontman_calc_str_width, hv, dite_true, font_slot_fin]
  have := calc_str_width_loop_wrap (fonts i).width_table s hidx 0
  simpa [wrap_s32] using this

theorem fontman_calc_char_idx_loop (fonts : Fin 3 → font) (i : Fin 3) (s : List Int)
    (pixpos : Int) :
    fontman_calc_char_idx fonts (i.val : Int) (some s) pixpos
      = calc_char_idx_loop (fonts i).width_table pixpos s 0 0 := by
  have hv := valid_font_id_fin i
  simp only [fontman_calc_char_idx, hv, dite_true, font_slot_fin]

/-- Invariant of the scan of `fontman_calc_char_idx`, started at index `idx` and position
`pos`: when every character that the scan reaches indexes inside the table and every value
that it computes is representable, it stops at the first character whose centre is at or
beyond `pixpos`, or at the end of the text. -/
theorem calc_char_idx_loop_scan (wt : Fin 256 → Int) (pixpos : Int) (s : List Int) :
    ∀ idx pos : Int, 0 ≤ idx →
      (∀ j < (c_str s).length, (∀ t < j, pos + char_centre wt (c_str s) t < pixpos) →
        in_table ((c_str s).getD j 0)
        ∧ in_s32 (pixpos - Int.shiftRight (width_of wt ((c_str s).getD j 0)) 1)
        ∧ (pos + char_centre wt (c_str s) j < pixpos →
            in_s32 (pos + width_sum wt ((c_str s).take (j + 1)))
            ∧ idx + (j : Int) + 1 < 2147483648)) →
      ∃ k : Nat, calc_char_idx_loop wt pixpos s idx pos = some (idx + (k : Int))
        ∧ k ≤ (c_str s).length
        ∧ (∀ j < k, pos + char_centre wt (c_str s) j < pixpos)
        ∧ (k < (c_str s).length → pixpos ≤ pos + char_centre wt (c_str s) k) := by
  induction s with
  | nil =>
    intro idx pos _ _
    exact ⟨0, by simp [calc_char_idx_loop], by simp, by simp, by simp [c_str]⟩
  | cons c t ih =>
    intro idx pos h0 hscan
    by_cases hc : c = 0
    · subst hc
      refine ⟨0, by simp [calc_char_idx_loop], by simp, by simp, ?_⟩
      simp [c_str_cons_zero]
    · rw [c_str_cons_ne c t hc] at hscan ⊢
      obtain ⟨hin, hs, hnext⟩ := hscan 0 (by simp) (fun t ht => absurd ht (Nat.not_lt_zero t))
      simp only [List.getD_cons_zero] at hin hs
      rw [char_centre_zero] at hnext
      have hr := table_read_in wt c hin
      have hw : wrap_s32 (pixpos - Int.shiftRight (width_of wt c) 1)
          = pixpos - width_of wt c / 2 := by
        rw [wrap_s32_of_range _ hs.1 hs.2, shiftRight_one]
      by_cases hcond : pos ≥ pixpos - width_of wt c / 2
      · refine ⟨0, ?_, by simp, by simp, ?_⟩
        · simp only [calc_char_idx_loop, hc, if_false, hr, hw]
          simp [hcond]
        · intro _
          rw [char_centre_zero]; omega
      · obtain ⟨hfit, hidx1⟩ := hnext (by omega)
        simp only [List.take_succ_cons, List.take_zero, width_sum_cons, width_sum_nil]
          at hfit
        have e1 : wrap_s32 (idx + 1) = idx + 1 := wrap_s32_of_range _ (by omega) (by omega)
        have e2 : wrap_s32 (pos + width_of wt c) = pos + width_of wt c :=
          wrap_s32_of_range _ (by have := hfit.1; omega) (by have := hfit.2; omega)
        obtain ⟨k, hk, hkl, hlt, hge⟩ := ih (idx + 1) (pos + width_of wt c) (by omega)
          (by
            intro j hj hpre
            have hj1 : j + 1 < (c :: c_str t).length := by simp; omega
            have hpre1 : ∀ u < j + 1, pos + char_centre wt (c :: c_str t) u < pixpos := by
              intro u hu
              cases u with
              | zero => rw [char_centre_zero]; omega
              | succ u =>
                have := hpre u (by omega)
                rw [char_centre_succ]; omega
            obtain ⟨a1, a2, a3⟩ := hscan (j + 1) hj1 hpre1
            simp only [List.getD_cons_succ] at a1 a2
            refine ⟨a1, a2, ?_⟩
            intro hlt
            obtain ⟨b1, b2⟩ := a3 (by rw [char_centre_succ]; omega)
            simp only [List.take_succ_cons, width_sum_cons] at b1
            refine ⟨⟨by have := b1.1; omega, by have := b1.2; omega⟩, ?_⟩
            push_cast at b2
            omega)
        refine ⟨k + 1, ?_, by simp; omega, ?_, ?_⟩
        · simp only [calc_char_idx_loop, hc, if_false, hr, hw, hcond, e1, e2, hk]
          push_cast
          congr 1
          omega
        · intro j hj
          cases j with
          | zero => rw [char_centre_zero]; omega
          | succ j =>
            have := hlt j (by omega)
            rw [char_centre_succ]; omega
        · intro hk2
          have := hge (by simp at hk2; omega)
          rw [char_centre_succ]; omega

/-- The scan of `fontman_calc_char_idx` runs to the end of the text when the position never
reaches `pixpos`, every character indexes inside the table and no `s32` operation
overflows. -/
theorem calc_char_idx_loop_end (wt : Fin 256 → Int) (hnn : ∀ k : Fin 256, 0 ≤ wt k)
    (pixpos : Int) (hpx : pixpos < 2147483648) (s : List Int) :
    ∀ idx pos : Int, 0 ≤ idx → 0 ≤ pos → idx + ((c_str s).length : Int) < 2147483648 →
      pos + width_sum wt (c_str s) < pixpos → (∀ c ∈ c_str s, in_table c) →
      calc_char_idx_loop wt pixpos s idx pos = some (idx + ((c_str s).length : Int)) := by
  induction s with
  | nil => intro idx pos _ _ _ _ _; simp [calc_char_idx_loop, c_str]
  | cons c t ih =>
    intro idx pos h0 hp hlen hsum hidx
    by_cases hc : c = 0
    · subst hc
      simp [calc_char_idx_loop, c_str_cons_zero]
    · rw [c_str_cons_ne c t hc] at hlen hsum hidx ⊢
      rw [width_sum_cons] at hsum
      simp only [List.length_cons, Nat.cast_add, Nat.cast_one] at hlen ⊢
      have hr := table_read_in wt c (hidx c (List.mem_cons_self c _))
      have hw0 := width_of_nonneg wt hnn c
      have hrest := width_sum_nonneg wt hnn (c_str t)
      have hw : wrap_s32 (pixpos - Int.shiftRight (width_of wt c) 1)
          = pixpos - width_of wt c / 2 := by
        rw [shiftRight_one]
        exact wrap_s32_of_range _ (by omega) (by omega)
      have hcond : ¬ (pos ≥ pixpos - width_of wt c / 2) := by omega
      have e1 : wrap_s32 (idx + 1) = idx + 1 := wrap_s32_of_range _ (by omega) (by omega)
      have e2 : wrap_s32 (pos + width_of wt c) = pos + width_of wt c :=
        wrap_s32_of_range _ (by omega) (by omega)
      simp only [calc_char_idx_loop, hc, if_false, hr, hw, hcond, e1, e2]
      rw [ih (idx + 1) (pos + width_of wt c) (by omega) (by omega) (by omega) (by omega)
        (fun c2 h2 => hidx c2 (List.mem_cons_of_mem _ h2))]
      congr 1
      omega

theorem calc_char_idx_loop_hit (wt : Fin 256 → Int) (pixpos c : Int) (t : List Int)
    (idx pos : Int) (hc : c ≠ 0) (hin : in_table c)
    (h : pos ≥ wrap_s32 (pixpos - Int.shiftRight (width_of wt c) 1)) :
    calc_char_idx_loop wt pixpos (c :: t) idx pos = some idx := by
  have hr := table_read_in wt c hin
  simp only [calc_char_idx_loop, hc, if_false, hr, h, if_true]

theorem mono8_nonneg : ∀ k : Fin 256, 0 ≤ mono8.width_table k := by
  intro k
  show (0 : Int) ≤ 8
  decide

theorem mono16_nonneg : ∀ k : Fin 256, 0 ≤ mono16.width_table k := by
  intro k
  show (0 : Int) ≤ 16
  decide

theorem replicate_in_table (n : Nat) (c : Int) (hc : c ≠ 0) (hin : in_table c) :
    ∀ x ∈ c_str (List.replicate n c), in_table x := by
  intro x hx
  rw [c_str_replicate n c hc] at hx
  rw [List.eq_of_mem_replicate hx]
  exact hin

/-! ## Claims about screen creation and font metrics -/

/-- C5: for every requested width and height, `create` returns `NULL` exactly when the screen
driver reports a depth other than 16 after `set_screen(width, height, 16)`, and a non-null
handle exactly when it reports 16. -/
theorem create_null_iff_depth {σ κ : Type} (scrdrv : scrdrv_services σ)
    (clip : clipping_services κ) (GFX_IMG_TYPE_RGB16 : Int) (width height : Int)
    (st : gfx_state κ) (drv : σ) :
    ((create scrdrv clip GFX_IMG_TYPE_RGB16 width height st drv).1 = 0
        ↔ scrdrv.get_scr_depth (scrdrv.set_screen drv width height 16) ≠ 16)
    ∧ ((create scrdrv clip GFX_IMG_TYPE_RGB16 width height st drv).1 ≠ 0
        ↔ scrdrv.get_scr_depth (scrdrv.set_screen drv width height 16) = 16) := by
  unfold create
  by_cases h : scrdrv.get_scr_depth (scrdrv.set_screen drv width height 16) = 16
  · simp [h]
  · simp [h]

/-- C6: `fontman_get_by_id` returns the pointer to the font record of slot `font_id` exactly
when `font_id` is 0, 1 or 2, and `NULL` for every other id, negative ids included. -/
theorem fontman_get_by_id_spec (font_id : Int) :
    (∀ i : Fin 3, fontman_get_by_id font_id = some i ↔ font_id = (i.val : Int))
    ∧ (fontman_get_by_id font_id = none ↔ ¬ (font_id = 0 ∨ font_id = 1 ∨ font_id = 2))
    ∧ (fontman_get_by_id font_id = none ↔ (font_id < 0 ∨ 2 < font_id)) := by
  by_cases hv : valid_font_id font_id = true
  · have hr : 0 ≤ font_id ∧ font_id ≤ 2 := by
      simpa only [valid_font_id, decide_eq_true_eq, ge_iff_le] using hv
    have e : fontman_get_by_id font_id = some (font_slot font_id hv) := by
      simp only [fontman_get_by_id, hv, dite_true]
    have hs : ((font_slot font_id hv).val : Int) = font_id := by
      simp only [font_slot]
      omega
    refine ⟨?_, ?_, ?_⟩
    · intro i
      rw [e]
      constructor
      · intro h
        rw [← Option.some.inj h, hs]
      · intro h
        congr 1
        apply Fin.ext
        have : ((font_slot font_id hv).val : Int) = (i.val : Int) := by rw [hs, h]
        exact_mod_cast this
    · rw [e]
      simp only [reduceCtorEq, false_iff, not_not]
      omega
    · rw [e]
      simp only [reduceCtorEq, false_iff]
      omega
  · have hr : ¬ (0 ≤ font_id ∧ font_id ≤ 2) := by
      simpa only [valid_font_id, decide_eq_true_eq, ge_iff_le] using hv
    have e : fontman_get_by_id font_id = none := by
      simp only [fontman_get_by_id, hv]
      rfl
    refine ⟨?_, ?_, ?_⟩
    · intro i
      have := i.isLt
      rw [e]
      simp only [reduceCtorEq, false_iff]
      omega
    · rw [e]
      simp only [true_iff]
      omega
    · rw [e]
      simp only [true_iff]
      omega

/-- C7, as stated, fails: in a font whose characters are all 16 pixels wide, the width of a
text of 134217728 characters is not the sum 2147483648 of the table entries, which the
`s32` result cannot hold. -/
theorem calc_str_width_counterexample :
    fontman_calc_str_width (fun _ => mono16) 1 (some (List.replicate 134217728 97))
      ≠ some (width_sum mono16.width_table (c_str (List.replicate 134217728 97))) := by
  have h := fontman_calc_str_width_wrap (fun _ => mono16) 1 (List.replicate 134217728 97)
    (replicate_in_table _ 97 (by decide) (by decide))
  have e : width_sum mono16.width_table (c_str (List.replicate 134217728 97)) = 2147483648 := by
    rw [c_str_replicate _ _ (by decide), width_sum_replicate]
    rfl
  rw [e] at h ⊢
  have h2 : fontman_calc_str_width (fun _ => mono16) 1 (some (List.replicate 134217728 97))
      = some (-2147483648) := by
    rw [← show wrap_s32 2147483648 = -2147483648 from by decide]
    exact h
  rw [h2]
  decide

/-- C7, amended: for every valid font id and every non-null text whose characters all index
inside the 256-entry width table (character codes 0..255 after the conversion to `s32`) and
whose width sum is representable as `s32`, `fontman_calc_str_width` returns the sum, over the
characters of the text in order, of the font's width-table entry for that character; for the
empty text the result is 0. -/
theorem calc_str_width_sum (fonts : Fin 3 → font) (i : Fin 3) (s : List Int)
    (hidx : ∀ c ∈ c_str s, in_table c)
    (hfit : in_s32 (width_sum (fonts i).width_table (c_str s))) :
    fontman_calc_str_width fonts (i.val : Int) (some s)
        = some (width_sum (fonts i).width_table (c_str s))
    ∧ fontman_calc_str_width fonts (i.val : Int) (some []) = some 0 := by
  constructor
  · rw [fontman_calc_str_width_wrap fonts i s hidx, wrap_s32_of_range _ hfit.1 hfit.2]
  · rw [fontman_calc_str_width_wrap fonts i [] (by simp [c_str])]
    rfl

/-- Witness for C7 (amended): the text "Hi" followed by a NUL and further bytes, in font 1. -/
theorem calc_str_width_sum_witness :
    (∀ c ∈ c_str [72, 105, 0, 33], in_table c)
    ∧ in_s32 (width_sum mono16.width_table (c_str [72, 105, 0, 33]))
    ∧ (fontman_calc_str_width (fun _ => mono16) ((1 : Fin 3).val : Int) (some [72, 105, 0, 33])
        = some (width_sum mono16.width_table (c_str [72, 105, 0, 33]))
      ∧ fontman_calc_str_width (fun _ => mono16) ((1 : Fin 3).val : Int) (some []) = some 0) :=
  ⟨by decide, by decide,
    calc_str_width_sum (fun _ => mono16) 1 [72, 105, 0, 33] (by decide) (by decide)⟩

/-- C8: for a font id outside 0..2 with any text, and for a null text with any font id,
`fontman_calc_str_width`, `fontman_calc_str_height` and `fontman_calc_char_idx` return 0,
whatever the font tables hold and without any table access. -/
theorem calc_invalid_input_zero (fonts : Fin 3 → font) (font_id : Int)
    (str : Option (List Int)) (pixpos : Int)
    (h : font_id < 0 ∨ 2 < font_id ∨ str = none) :
    fontman_calc_str_width fonts font_id str = some 0
    ∧ fontman_calc_str_height fonts font_id str = 0
    ∧ fontman_calc_char_idx fonts font_id str pixpos = some 0 := by
  cases str with
  | none => exact ⟨rfl, rfl, rfl⟩
  | some s =>
    have hv : valid_font_id font_id = false := by
      apply valid_font_id_outside
      rcases h with h | h | h
      · exact Or.inl h
      · exact Or.inr h
      · cases h
    simp [fontman_calc_str_width, fontman_calc_str_height, fontman_calc_char_idx, hv]

/-- Witness for C8: font id 3 with the text "x". -/
theorem calc_invalid_input_zero_witness :
    ((3 : Int) < 0 ∨ (2 : Int) < 3 ∨ some [120] = (none : Option (List Int)))
    ∧ (fontman_calc_str_width (fun _ => mono16) 3 (some [120]) = some 0
      ∧ fontman_calc_str_height (fun _ => mono16) 3 (some [120]) = 0
      ∧ fontman_calc_char_idx (fun _ => mono16) 3 (some [120]) 5 = some 0) :=
  ⟨by decide, calc_invalid_input_zero (fun _ => mono16) 3 (some [120]) 5 (by decide)⟩

/-- C9, as stated, fails: for the one-character text "a" in a font of 8 pixel wide characters
and `pixel_x = -2147483646` (the value `NOARG`), character 0 has its centre at 4, at or beyond
`pixel_x`, yet the function returns 1: `pixpos - (charw>>1)` leaves the `s32` range. -/
theorem calc_char_idx_counterexample :
    (-2147483646 : Int) ≤ char_centre mono8.width_table (c_str [97]) 0
    ∧ fontman_calc_char_idx (fun _ => mono8) 1 (some [97]) (-2147483646) = some 1 := by
  decide

/-- C9, amended: for every valid font id, every non-null text and every `pixel_x` such that,
for each character the scan reaches (no earlier character has its centre at or beyond
`pixel_x`), the character indexes inside the 256-entry width table and the value
`pixel_x - (width>>1)` is representable as `s32`, and such that, whenever the scan moves past
a character, the accumulated position and the incremented index are representable,
`fontman_calc_char_idx` returns the smallest index `k` whose centre
`(sum of the widths of characters 0..k-1) + (width of character k)/2` is at or beyond
`pixel_x`, and the length of the text when no character satisfies this. -/
theorem calc_char_idx_first_centre (fonts : Fin 3 → font) (i : Fin 3) (s : List Int)
    (pixpos : Int)
    (hscan : ∀ j < (c_str s).length,
      (∀ t < j, char_centre (fonts i).width_table (c_str s) t < pixpos) →
        in_table ((c_str s).getD j 0)
        ∧ in_s32 (pixpos
            - Int.shiftRight (width_of (fonts i).width_table ((c_str s).getD j 0)) 1)
        ∧ (char_centre (fonts i).width_table (c_str s) j < pixpos →
            in_s32 (width_sum (fonts i).width_table ((c_str s).take (j + 1)))
            ∧ (j : Int) + 1 < 2147483648)) :
    ∃ k : Nat, fontman_calc_char_idx fonts (i.val : Int) (some s) pixpos = some (k : Int)
      ∧ k ≤ (c_str s).length
      ∧ (∀ j < k, char_centre (fonts i).width_table (c_str s) j < pixpos)
      ∧ (k < (c_str s).length → pixpos ≤ char_centre (fonts i).width_table (c_str s) k) := by
  obtain ⟨k, hk, hkl, hlt, hge⟩ :=
    calc_char_idx_loop_scan (fonts i).width_table pixpos s 0 0 (by omega)
      (by
        intro j hj hpre
        obtain ⟨a1, a2, a3⟩ := hscan j hj (fun t ht => by have := hpre t ht; omega)
        refine ⟨a1, a2, ?_⟩
        intro hlt
        obtain ⟨b1, b2⟩ := a3 (by omega)
        exact ⟨by rw [Int.zero_add]; exact b1, by omega⟩)
  refine ⟨k, ?_, hkl, ?_, ?_⟩
  · rw [fontman_calc_char_idx_loop, hk, Int.zero_add]
  · intro j hj
    have := hlt j hj
    omega
  · intro h
    have := hge h
    omega

/-- Witness for C9 (amended): the text "aaa" at `pixel_x = 5` in a font whose characters are
1073741824 pixels wide; the scan stops at the first character, so the widths of the later
characters are never added. -/
theorem calc_char_idx_first_centre_witness :
    (∀ j < (c_str [97, 97, 97]).length,
      (∀ t < j, char_centre wide.width_table (c_str [97, 97, 97]) t < 5) →
        in_table ((c_str [97, 97, 97]).getD j 0)
        ∧ in_s32 (5 - Int.shiftRight (width_of wide.width_table ((c_str [97, 97, 97]).getD j 0)) 1)
        ∧ (char_centre wide.width_table (c_str [97, 97, 97]) j < 5 →
            in_s32 (width_sum wide.width_table ((c_str [97, 97, 97]).take (j + 1)))
            ∧ (j : Int) + 1 < 2147483648))
    ∧ ∃ k : Nat, fontman_calc_char_idx (fun _ => wide) ((2 : Fin 3).val : Int)
          (some [97, 97, 97]) 5 = some (k : Int)
      ∧ k ≤ (c_str [97, 97, 97]).length
      ∧ (∀ j < k, char_centre wide.width_table (c_str [97, 97, 97]) j < 5)
      ∧ (k < (c_str [97, 97, 97]).length
          → 5 ≤ char_centre wide.width_table (c_str [97, 97, 97]) k) :=
  ⟨by decide, calc_char_idx_first_centre (fun _ => wide) 2 [97, 97, 97] 5 (by decide)⟩

/-- C10, as stated, fails: in a font whose characters are all 16 pixels wide (no negative
entry), for a text of 134217728 characters the `s32` width wraps to a negative value, so
`pixel_x = 0` is strictly greater than `fontman_calc_str_width`, yet `fontman_calc_char_idx`
returns 0 and not the length of the text. -/
theorem calc_char_idx_beyond_counterexample :
    (∀ k : Fin 256, 0 ≤ mono16.width_table k)
    ∧ fontman_calc_str_width (fun _ => mono16) 1 (some (List.replicate 134217728 97))
        = some (-2147483648)
    ∧ (-2147483648 : Int) < 0
    ∧ fontman_calc_char_idx (fun _ => mono16) 1 (some (List.replicate 134217728 97)) 0
        = some 0
    ∧ (0 : Int) ≠ ((c_str (List.replicate 134217728 97)).length : Int) := by
  have h := fontman_calc_str_width_wrap (fun _ => mono16) 1 (List.replicate 134217728 97)
    (replicate_in_table _ 97 (by decide) (by decide))
  have e : width_sum mono16.width_table (c_str (List.replicate 134217728 97)) = 2147483648 := by
    rw [c_str_replicate _ _ (by decide), width_sum_replicate]
    rfl
  rw [e, show wrap_s32 2147483648 = -2147483648 from by decide] at h
  have hw : fontman_calc_str_width (fun _ => mono16) 1 (some (List.replicate 134217728 97))
      = some (-2147483648) := h
  have hz : calc_char_idx_loop mono16.width_table 0 (List.replicate 134217728 97) 0 0
      = some 0 := by
    rw [show (134217728 : Nat) = 134217727 + 1 from rfl, List.replicate_succ]
    exact calc_char_idx_loop_hit _ _ _ _ _ _ (by decide) (by decide) (by decide)
  have hi : fontman_calc_char_idx (fun _ => mono16) 1 (some (List.replicate 134217728 97)) 0
      = some 0 :=
    (fontman_calc_char_idx_loop (fun _ => mono16) 1 (List.replicate 134217728 97) 0).trans hz
  refine ⟨mono16_nonneg, hw, by decide, hi, ?_⟩
  rw [c_str_replicate _ _ (by decide), List.length_replicate]
  decide

/-- C10, amended: for every valid font whose width-table entries are non-negative, every
non-null text shorter than 2^31 characters whose characters all index inside the 256-entry
width table (character codes 0..255 after the conversion to `s32`) and whose width sum is
representable as `s32`, and every `s32` value `pixel_x` strictly greater than
`fontman_calc_str_width(font, text)`, `fontman_calc_char_idx(font, text, pixel_x)` equals the
length of the text. -/
theorem calc_char_idx_beyond (fonts : Fin 3 → font) (i : Fin 3) (s : List Int) (pixpos : Int)
    (w : Int)
    (hnn : ∀ k : Fin 256, 0 ≤ (fonts i).width_table k)
    (hidx : ∀ c ∈ c_str s, in_table c)
    (hlen : ((c_str s).length : Int) < 2147483648)
    (hfit : width_sum (fonts i).width_table (c_str s) < 2147483648)
    (hpx : in_s32 pixpos)
    (hw : fontman_calc_str_width fonts (i.val : Int) (some s) = some w)
    (hgt : w < pixpos) :
    fontman_calc_char_idx fonts (i.val : Int) (some s) pixpos
      = some ((c_str s).length : Int) := by
  have h0 := width_sum_nonneg (fonts i).width_table hnn (c_str s)
  rw [fontman_calc_str_width_wrap fonts i s hidx, wrap_s32_of_range _ (by omega) hfit] at hw
  have hww : width_sum (fonts i).width_table (c_str s) = w := Option.some.inj hw
  rw [fontman_calc_char_idx_loop,
    calc_char_idx_loop_end (fonts i).width_table hnn pixpos hpx.2 s 0 0 (by omega) (by omega)
      (by omega) (by omega) hidx, Int.zero_add]

/-- Witness for C10 (amended): the text "aaa" in a font of 8 pixel wide characters, at
`pixel_x = 25`. -/
theorem calc_char_idx_beyond_witness :
    (∀ k : Fin 256, 0 ≤ mono8.width_table k)
    ∧ (∀ c ∈ c_str [97, 97, 97], in_table c)
    ∧ (((c_str [97, 97, 97]).length : Int) < 2147483648)
    ∧ width_sum mono8.width_table (c_str [97, 97, 97]) < 2147483648
    ∧ in_s32 25
    ∧ fontman_calc_str_width (fun _ => mono8) ((1 : Fin 3).val : Int) (some [97, 97, 97])
        = some 24
    ∧ (24 : Int) < 25
    ∧ fontman_calc_char_idx (fun _ => mono8) ((1 : Fin 3).val : Int) (some [97, 97, 97]) 25
        = some ((c_str [97, 97, 97]).length : Int) :=
  ⟨mono8_nonneg, by decide, by decide, by decide, by decide, by decide, by decide,
    calc_char_idx_beyond (fun _ => mono8) 1 [97, 97, 97] 25 24 mono8_nonneg (by decide)
      (by decide) (by decide) (by decide) (by decide) (by decide)⟩

/-! ## dopestd.cc: helper lemmas -/

theorem c_str_cases (s : List Int) :
    (s = [] ∨ ∃ t, s = 0 :: t) ∨ ∃ c t, s = c :: t ∧ c ≠ 0 ∧ c_str s = c :: c_str t := by
  cases s with
  | nil => exact Or.inl (Or.inl rfl)
  | cons c t =>
    by_cases hc : c = 0
    · subst hc
      exact Or.inl (Or.inr ⟨t, rfl⟩)
    · exact Or.inr ⟨c, t, rfl, hc, c_str_cons_ne c t hc⟩

theorem c_str_length_le (s : List Int) : (c_str s).length ≤ s.length := by
  induction s with
  | nil => simp [c_str]
  | cons c t ih =>
    by_cases hc : c = 0
    · subst hc
      simp [c_str_cons_zero]
    · rw [c_str_cons_ne c t hc]
      simp only [List.length_cons]
      omega

/-- Result of the loop of `streq` when `k` iterations remain: it compares the text of `s2`
with the first `k` characters of the text of `s1`. -/
theorem streq_loop_spec (max_s1 : Int) :
    ∀ (k : Nat) (i : Int) (s1 s2 : List Int), i + (k : Int) = max_s1 →
      streq_loop max_s1 k i s1 s2 = if c_str s2 = (c_str s1).take k then 1 else 0 := by
  intro k
  induction k with
  | zero =>
    intro i s1 s2 h
    have hi : i = max_s1 := by simpa using h
    rcases c_str_cases s2 with (rfl | ⟨t2, rfl⟩) | ⟨b, t2, rfl, hb, e2⟩
    · simp [streq_loop, hi, c_str_nil]
    · simp [streq_loop, hi, c_str_cons_zero]
    · simp [streq_loop, hi, hb, e2]
  | succ k ih =>
    intro i s1 s2 h
    have hi : i < max_s1 := by push_cast at h; omega
    rcases c_str_cases s1 with (rfl | ⟨t1, rfl⟩) | ⟨a, t1, rfl, ha, e1⟩
    · rcases c_str_cases s2 with (rfl | ⟨t2, rfl⟩) | ⟨b, t2, rfl, hb, e2⟩
      · simp [streq_loop, hi, c_str_nil]
      · simp [streq_loop, hi, c_str_nil, c_str_cons_zero]
      · have hne : ¬ (0 = b) := fun h0 => hb h0.symm
        simp [streq_loop, hi, c_str_nil, e2, hne]
    · rcases c_str_cases s2 with (rfl | ⟨t2, rfl⟩) | ⟨b, t2, rfl, hb, e2⟩
      · simp [streq_loop, hi, c_str_nil, c_str_cons_zero]
      · simp [streq_loop, hi, c_str_cons_zero]
      · have hne : ¬ (0 = b) := fun h0 => hb h0.symm
        simp [streq_loop, hi, c_str_cons_zero, e2, hne]
    · rcases c_str_cases s2 with (rfl | ⟨t2, rfl⟩) | ⟨b, t2, rfl, hb, e2⟩
      · simp [streq_loop, hi, c_str_nil, e1, ha]
      · simp [streq_loop, hi, c_str_cons_zero, e1, ha]
      · by_cases hab : a = b
        · subst hab
          have hrec := ih (i + 1) t1 t2 (by push_cast at h; omega)
          simp [streq_loop, hi, e1, e2, ha, hrec]
        · have hba : ¬ (b = a) := fun h0 => hab h0.symm
          simp [streq_loop, hi, e1, e2, hab, hba]

theorem streq_spec (s1 s2 : List Int) (max_s1 : Int) (h : 0 ≤ max_s1) :
    streq (some s1) (some s2) max_s1
      = if c_str s2 = (c_str s1).take max_s1.toNat then 1 else 0 := by
  simp only [streq]
  exact streq_loop_spec max_s1 max_s1.toNat 0 s1 s2 (by omega)

/-! ## Claims about the font height, string comparison and the half blend -/

/-- C11: for every valid font id, `fontman_calc_str_height` returns the `img_h` of the font for
every non-null text, so the result is the same for any two non-null texts, the empty text
included. -/
theorem calc_str_height_img_h (fonts : Fin 3 → font) (i : Fin 3) (s t : List Int) :
    fontman_calc_str_height fonts (i.val : Int) (some s) = (fonts i).img_h
    ∧ fontman_calc_str_height fonts (i.val : Int) (some s)
        = fontman_calc_str_height fonts (i.val : Int) (some t)
    ∧ fontman_calc_str_height fonts (i.val : Int) (some s)
        = fontman_calc_str_height fonts (i.val : Int) (some []) := by
  have hv := valid_font_id_fin i
  simp only [fontman_calc_str_height, hv, dite_true, font_slot_fin, and_self]

/-- C12: for non-null strings `s1`, `s2` and every `max_s1` not below the length of `s1`,
`streq` returns 1 if the two strings are the same and 0 otherwise; it returns 0 whenever `s1`
or `s2` is null. -/
theorem streq_equality (s1 s2 : List Int) (max_s1 : Int)
    (h : ((c_str s1).length : Int) ≤ max_s1) :
    streq (some s1) (some s2) max_s1 = (if c_str s1 = c_str s2 then 1 else 0)
    ∧ (∀ (x : Option (List Int)) (m : Int), streq none x m = 0)
    ∧ (∀ (x : Option (List Int)) (m : Int), streq x none m = 0) := by
  refine ⟨?_, ?_, ?_⟩
  · rw [streq_spec s1 s2 max_s1 (by omega), List.take_of_length_le (by omega)]
    by_cases e : c_str s1 = c_str s2
    · simp [e]
    · have e2 : ¬ (c_str s2 = c_str s1) := fun h0 => e h0.symm
      simp [e, e2]
  · intro x m
    cases x <;> rfl
  · intro x m
    cases x <;> rfl

/-- Witness for C12: "ab" against "ab" and `max_s1 = 5`. -/
theorem streq_equality_witness :
    (((c_str [97, 98]).length : Int) ≤ 5)
    ∧ (streq (some [97, 98]) (some [97, 98]) 5 = (if c_str [97, 98] = c_str [97, 98] then 1 else 0)
      ∧ (∀ (x : Option (List Int)) (m : Int), streq none x m = 0)
      ∧ (∀ (x : Option (List Int)) (m : Int), streq x none m = 0)) :=
  ⟨by decide, streq_equality [97, 98] [97, 98] 5 (by decide)⟩

/-- C18: for non-null `s1`, `s2` and `max_s1 >= 0`, `streq` returns 1 if `s2` equals `s1`
truncated to `max_s1` characters and 0 otherwise; when `s1` is longer than `max_s1` this means
that it returns 1 exactly when `s2` has length `max_s1` and equals the first `max_s1`
characters of `s1`. -/
theorem streq_bounded (s1 s2 : List Int) (max_s1 : Int) (h : 0 ≤ max_s1) :
    streq (some s1) (some s2) max_s1
        = (if c_str s2 = (c_str s1).take max_s1.toNat then 1 else 0)
    ∧ (max_s1 < ((c_str s1).length : Int) →
        (streq (some s1) (some s2) max_s1 = 1
          ↔ (((c_str s2).length : Int) = max_s1
              ∧ c_str s2 = (c_str s1).take max_s1.toNat))) := by
  refine ⟨streq_spec s1 s2 max_s1 h, ?_⟩
  intro hl
  rw [streq_spec s1 s2 max_s1 h]
  constructor
  · intro e
    have e2 : c_str s2 = (c_str s1).take max_s1.toNat := by
      by_contra hne
      simp [hne] at e
    refine ⟨?_, e2⟩
    rw [e2, List.length_take]
    omega
  · intro e
    simp [e.2]

/-- Witness for C18: "abc" against "ab" and `max_s1 = 2`. -/
theorem streq_bounded_witness :
    ((0 : Int) ≤ 2)
    ∧ (streq (some [97, 98, 99]) (some [97, 98]) 2
          = (if c_str [97, 98] = (c_str [97, 98, 99]).take (2 : Int).toNat then 1 else 0)
      ∧ ((2 : Int) < ((c_str [97, 98, 99]).length : Int) →
          (streq (some [97, 98, 99]) (some [97, 98]) 2 = 1
            ↔ (((c_str [97, 98]).length : Int) = 2
                ∧ c_str [97, 98] = (c_str [97, 98, 99]).take (2 : Int).toNat)))) :=
  ⟨by decide, streq_bounded [97, 98, 99] [97, 98] 2 (by decide)⟩

/-- C19: for every 16-bit colour, the 50% dim agrees with blending at alpha 128. -/
theorem blend_half_eq_blend_128 (c : pixel_t) : blend_half c = blend c 128 := by
  obtain ⟨er, eg, eb⟩ := blend_channels_nat c 128 (by omega)
  obtain ⟨hr, hg, hb⟩ := blend_half_channels c
  have er2 : red (blend c 128) = red c / 2 := by
    have : red (blend c ((128 : Nat) : Int)) = red c / 2 := by rw [er]; omega
    exact this
  have eg2 : green (blend c 128) = green c / 2 := by
    have : green (blend c ((128 : Nat) : Int)) = green c / 2 := by rw [eg]; omega
    exact this
  have eb2 : blue (blend c 128) = blue c / 2 := by
    have : blue (blend c ((128 : Nat) : Int)) = blue c / 2 := by rw [eb]; omega
    exact this
  apply pixel_ext
  · rw [hr, er2]
  · rw [hg, eg2]
  · rw [hb, eb2]

/-! ## appman.cc: helper lemmas -/

theorem to_u32_natCast (n : Nat) (h : n < 4294967296) : to_u32 (n : Int) = n := by
  unfold to_u32; omega

theorem to_u32_neg (x : Int) (h0 : -2147483648 ≤ x) (h1 : x < 0) : 64 ≤ to_u32 x := by
  unfold to_u32; omega

theorem to_u32_large (x : Int) (h0 : 64 ≤ x) (h1 : x < 4294967296) : 64 ≤ to_u32 x := by
  unfold to_u32; omega

theorem apps_at_fin (apps : app_table) (i : Fin 64) : apps_at apps i.val = apps i := by
  simp [apps_at]

theorem apps_at_ge (apps : app_table) (n : Nat) (h : 64 ≤ n) : apps_at apps n = none := by
  simp [apps_at]; omega

theorem set_slot_same (apps : app_table) (i : Fin 64) (v : Option app) :
    set_slot apps i.val v i = v := by
  simp [set_slot]

theorem set_slot_other (apps : app_table) (i : Nat) (j : Fin 64) (v : Option app)
    (h : j.val ≠ i) : set_slot apps i v j = apps j := by
  simp [set_slot, h]

theorem set_slot_none_of_none (apps : app_table) (i : Fin 64) (h : apps i = none) :
    set_slot apps i.val none = apps := by
  funext j
  by_cases e : j.val = i.val
  · have : j = i := Fin.ext e
    subst this
    rw [set_slot_same, h]
  · rw [set_slot_other apps i.val j none e]

theorem app_id_valid_invalid (apps : app_table) (n : Nat)
    (h : 64 ≤ n ∨ ∃ i : Fin 64, i.val = n ∧ apps i = none) : app_id_valid apps n = false := by
  rcases h with h | ⟨i, rfl, hi⟩
  · simp [app_id_valid, h]
  · simp [app_id_valid, apps_at_fin, hi]

theorem app_id_valid_occupied (apps : app_table) (i : Fin 64) (h : apps i ≠ none) :
    app_id_valid apps i.val = true := by
  have hi := i.isLt
  cases e : apps i with
  | none => exact absurd e h
  | some a => simp [app_id_valid, apps_at_fin, e]

/-- Result of the scan of `get_free_app_id` from id `i` on: either no free id is left and the
result is -1, or the result is the smallest free id from `i` on. -/
theorem get_free_app_id_loop_char (apps : app_table) :
    ∀ (k i : Nat), i + k = 64 →
      (get_free_app_id_loop apps k i = -1 ∧ ∀ j : Fin 64, i ≤ j.val → apps j ≠ none)
      ∨ ∃ j : Fin 64, i ≤ j.val ∧ get_free_app_id_loop apps k i = (j.val : Int)
          ∧ apps j = none ∧ ∀ l : Fin 64, i ≤ l.val → l.val < j.val → apps l ≠ none := by
  intro k
  induction k with
  | zero =>
    intro i h
    refine Or.inl ⟨rfl, ?_⟩
    intro j hj
    have := j.isLt
    omega
  | succ k ih =>
    intro i h
    have hi : i < 64 := by omega
    simp only [get_free_app_id_loop, if_pos hi]
    by_cases hn : (apps_at apps i).isNone = true
    · refine Or.inr ⟨⟨i, hi⟩, Nat.le_refl i, by simp [hn], ?_, ?_⟩
      · have e := apps_at_fin apps ⟨i, hi⟩
        rw [← e]
        simpa using hn
      · intro l h1 h2
        simp only at h2
        omega
    · have hocc : apps ⟨i, hi⟩ ≠ none := by
        have e := apps_at_fin apps ⟨i, hi⟩
        rw [← e]
        simpa using hn
      simp only [hn]
      rcases ih (i + 1) (by omega) with ⟨e, hall⟩ | ⟨j, hj, e, hfree, hmin⟩
      · refine Or.inl ⟨by simpa using e, ?_⟩
        intro j hj
        by_cases hji : j.val = i
        · have : j = ⟨i, hi⟩ := Fin.ext hji
          rw [this]; exact hocc
        · exact hall j (by omega)
      · refine Or.inr ⟨j, by omega, by simpa using e, hfree, ?_⟩
        intro l h1 h2
        by_cases hli : l.val = i
        · have : l = ⟨i, hi⟩ := Fin.ext hli
          rw [this]; exact hocc
        · exact hmin l (by omega) h2

theorem register_app_full (apps : app_table) (mem : Bool) (app_name : Option (List Int))
    (h : get_free_app_id apps = -1) : register_app apps mem app_name = (-1, apps) := by
  simp [register_app, h]

theorem register_app_free (apps : app_table) (app_name : Option (List Int)) (j : Fin 64)
    (h : get_free_app_id apps = (j.val : Int)) :
    register_app apps true app_name
      = ((j.val : Int),
          set_slot (set_slot apps j.val (new_app true)) j.val
            (set_app_name (new_app true) app_name)) := by
  have hlt : ¬ ((j.val : Int) < 0) := by omega
  have e : apps_at (set_slot apps j.val (new_app true)) j.val = new_app true := by
    rw [apps_at_fin, set_slot_same]
  simp only [register_app, h, hlt, if_false, Int.toNat_ofNat, e]
  simp [new_app]

theorem register_app_no_mem (apps : app_table) (app_name : Option (List Int)) (j : Fin 64)
    (h : get_free_app_id apps = (j.val : Int)) :
    (register_app apps false app_name).1 = -1 := by
  have hlt : ¬ ((j.val : Int) < 0) := by omega
  have e : apps_at (set_slot apps j.val (new_app false)) j.val = new_app false := by
    rw [apps_at_fin, set_slot_same]
  simp only [register_app, h, hlt, if_false, Int.toNat_ofNat, e]
  simp [new_app]

theorem set_app_name_new_ne_none (app_name : Option (List Int)) :
    set_app_name (new_app true) app_name ≠ none := by
  cases app_name <;> simp [set_app_name, new_app]

/-! ## Claims about the application registry -/

/-- C13: when the allocation succeeds, `register_app` returns the smallest id in 1..63 whose
slot is unoccupied, occupies exactly that slot and leaves every other slot unchanged; when
every slot 1..63 is occupied it returns -1 and leaves the registry unchanged. -/
theorem register_app_first_free (apps : app_table) (app_name : Option (List Int)) :
    (∀ i : Fin 64, 1 ≤ i.val → apps i = none →
        (∀ l : Fin 64, 1 ≤ l.val → l.val < i.val → apps l ≠ none) →
        (register_app apps true app_name).1 = (i.val : Int)
        ∧ (register_app apps true app_name).2 i ≠ none
        ∧ ∀ j : Fin 64, j ≠ i → (register_app apps true app_name).2 j = apps j)
    ∧ ((∀ i : Fin 64, 1 ≤ i.val → apps i ≠ none) →
        ∀ mem : Bool, register_app apps mem app_name = (-1, apps)) := by
  constructor
  · intro i h1 hfree hmin
    rcases get_free_app_id_loop_char apps 63 1 (by omega) with ⟨_, hall⟩ | ⟨j, hj, e, hjf, hjm⟩
    · exact absurd hfree (hall i h1)
    · have hji : j = i := by
        apply Fin.ext
        rcases Nat.lt_trichotomy j.val i.val with hlt | heq | hgt
        · exact absurd hjf (hmin j hj hlt)
        · exact heq
        · exact absurd hfree (hjm i h1 hgt)
      subst hji
      rw [register_app_free apps app_name j e]
      refine ⟨rfl, ?_, ?_⟩
      · simp only [set_slot_same]
        exact set_app_name_new_ne_none app_name
      · intro l hl
        have hv : l.val ≠ j.val := fun h0 => hl (Fin.ext h0)
        simp only []
        rw [set_slot_other _ _ _ _ hv, set_slot_other _ _ _ _ hv]
  · intro hall mem
    rcases get_free_app_id_loop_char apps 63 1 (by omega) with ⟨e, _⟩ | ⟨j, hj, _, hjf, _⟩
    · exact register_app_full apps mem app_name e
    · exact absurd hjf (hall j hj)

/-- Witness for C13: registering in the empty registry gives id 1, registering in a full
registry gives -1. -/
theorem register_app_first_free_witness :
    (register_app no_apps true (some [97])).1 = ((1 : Fin 64).val : Int)
    ∧ register_app full_apps true (some [97]) = (-1, full_apps) :=
  ⟨((register_app_first_free no_apps (some [97])).1 1 (by decide) rfl
      (fun l h1 h2 => absurd h1 (by omega))).1,
    (register_app_first_free full_apps (some [97])).2
      (fun i _ => by simp [full_apps, new_app]) true⟩

/-- With a current screen (`curr_scr` non-null), `unregister_app(app_id)` returns -1 and leaves
the registry unchanged when `app_id` is at least 64 or its slot is unoccupied (this part also
holds without a current screen); otherwise it returns 0, frees exactly the slot `app_id`, so
that `app_id` is invalid afterwards and `get_listener(app_id)` returns null, and leaves every
other slot unchanged. -/
theorem unregister_app_with_screen {ω : Type} (ws : widget_services ω) (curr_scr : Nat)
    (apps : app_table) (w : ω) (app_id : Nat) :
    ((64 ≤ app_id ∨ ∃ i : Fin 64, i.val = app_id ∧ apps i = none) →
        unregister_app ws curr_scr apps w app_id = some (-1, apps, w))
    ∧ (curr_scr ≠ 0 → ∀ i : Fin 64, i.val = app_id → apps i ≠ none →
        ∃ apps2 w2, unregister_app ws curr_scr apps w app_id = some (0, apps2, w2)
          ∧ apps2 i = none
          ∧ (∀ j : Fin 64, j ≠ i → apps2 j = apps j)
          ∧ app_id_valid apps2 app_id = false
          ∧ get_listener apps2 (app_id : Int) = 0) := by
  constructor
  · intro h
    have hv := app_id_valid_invalid apps app_id h
    simp [unregister_app, hv]
  · intro hscr i hi hocc
    subst hi
    have hv := app_id_valid_occupied apps i hocc
    cases e : apps i with
    | none => exact absurd e hocc
    | some a =>
      have hinv : app_id_valid (set_slot apps i.val none) i.val = false :=
        app_id_valid_invalid _ _ (Or.inr ⟨i, rfl, set_slot_same apps i none⟩)
      refine ⟨set_slot apps i.val none,
        ws.unlock (if a.rootscope ≠ 0 then ws.dec_ref (ws.lock w curr_scr) a.rootscope
          else ws.lock w curr_scr) curr_scr, ?_, set_slot_same apps i none, ?_, hinv, ?_⟩
      · simp only [unregister_app, hv, apps_at_fin, e]
        simp [hscr]
      · intro j hj
        exact set_slot_other apps i.val j none (fun h0 => hj (Fin.ext h0))
      · have := i.isLt
        simp only [get_listener, to_u32_natCast i.val (by omega), hinv, if_true]

/-- Without a current screen (`curr_scr` null), `unregister_app` on an occupied slot calls
`lock` through the null pointer. -/
theorem unregister_app_without_screen {ω : Type} (ws : widget_services ω) (apps : app_table)
    (w : ω) (i : Fin 64) (hocc : apps i ≠ none) :
    unregister_app ws 0 apps w i.val = none := by
  have hv := app_id_valid_occupied apps i hocc
  cases e : apps i with
  | none => exact absurd e hocc
  | some a => simp [unregister_app, hv, apps_at_fin, e]

/-- C16 fails in the code when `curr_scr` is null: after `register_app("a")` in the empty
registry slot 1 is occupied, so the claim promises the result 0 and a freed slot, but
`unregister_app(1)` calls `curr_scr->gen->lock` through the null `curr_scr`; `set_rootscope`,
`lock` and `unlock` test `curr_scr` first, this function does not. -/
theorem unregister_app_null_screen :
    ((register_app no_apps true (some [97])).2 1).isSome = true
    ∧ unregister_app idle_widgets 0 (register_app no_apps true (some [97])).2 () 1 = none :=
  ⟨by decide,
    unregister_app_without_screen idle_widgets (register_app no_apps true (some [97])).2 () 1
      (Option.isSome_iff_ne_none.mp (by decide))⟩

/-- C17: for every application id that is negative, at least 64, or whose slot is unoccupied,
`get_app_name` returns the empty string, `get_rootscope` and `get_listener` return null, and
`reg_listener` and `set_rootscope` leave the registry unchanged. -/
theorem invalid_app_id_fails_soft {ω : Type} (ws : widget_services ω) (curr_scr : Nat)
    (apps : app_table) (w : ω) (app_id : Int) (listener rootscope : Nat)
    (hr : -2147483648 ≤ app_id ∧ app_id < 4294967296)
    (h : app_id < 0 ∨ 64 ≤ app_id ∨ ∃ i : Fin 64, (i.val : Int) = app_id ∧ apps i = none) :
    get_app_name apps app_id = some []
    ∧ get_rootscope apps (to_u32 app_id) = 0
    ∧ get_listener apps app_id = 0
    ∧ reg_listener apps app_id listener = apps
    ∧ (set_rootscope ws curr_scr apps w (to_u32 app_id) rootscope).1 = apps := by
  have hv : app_id_valid apps (to_u32 app_id) = false := by
    apply app_id_valid_invalid
    rcases h with h | h | ⟨i, hi, hn⟩
    · exact Or.inl (to_u32_neg app_id hr.1 h)
    · exact Or.inl (to_u32_large app_id h hr.2)
    · refine Or.inr ⟨i, ?_, hn⟩
      have := i.isLt
      rw [← hi, to_u32_natCast i.val (by omega)]
  simp [get_app_name, get_rootscope, get_listener, reg_listener, set_rootscope, hv]

/-- Witness for C17: the id -1 in the empty registry. -/
theorem invalid_app_id_fails_soft_witness :
    ((-2147483648 : Int) ≤ -1 ∧ (-1 : Int) < 4294967296)
    ∧ get_app_name no_apps (-1) = some []
    ∧ get_rootscope no_apps (to_u32 (-1)) = 0
    ∧ get_listener no_apps (-1) = 0
    ∧ reg_listener no_apps (-1) 7 = no_apps
    ∧ (set_rootscope (ω := Unit) ⟨fun w _ => w, fun w _ => w, fun w _ => w, fun w _ => w,
        fun w _ _ => w⟩ 0 no_apps () (to_u32 (-1)) 9).1 = no_apps :=
  ⟨by decide,
    invalid_app_id_fails_soft (ω := Unit) _ 0 no_apps () (-1) 7 9 (by decide)
      (Or.inl (by decide))⟩

/-! ## appman.cc: names -/

theorem put_val (b : name_buf) (i : Nat) (c : Int) : (b.put i c).val = b.val.set i c := rfl

theorem set_at_append (pre : List Int) (p c : Int) (post : List Int) :
    (pre ++ p :: post).set pre.length c = pre ++ c :: post := by
  induction pre with
  | nil => rfl
  | cons a t ih => simp [ih]

theorem drop_of_getD_zero (l : List Int) :
    ∀ i : Nat, l.getD i 0 = 0 → c_str (l.drop i) = [] := by
  induction l with
  | nil => intro i _; simp [c_str]
  | cons a t ih =>
    intro i h
    cases i with
    | zero =>
      have : a = 0 := by simpa using h
      subst this
      simp [c_str_cons_zero]
    | succ i =>
      have : t.getD i 0 = 0 := by simpa using h
      simpa using ih i this

theorem drop_of_getD_ne (l : List Int) :
    ∀ i : Nat, l.getD i 0 ≠ 0 → l.drop i = l.getD i 0 :: l.drop (i + 1) := by
  induction l with
  | nil => intro i h; simp at h
  | cons a t ih =>
    intro i h
    cases i with
    | zero => simp
    | succ i =>
      have : t.getD i 0 ≠ 0 := by simpa using h
      simpa using ih i this

/-- The copy loop of `set_app_name` with `k` iterations left, on a buffer `pre ++ post` whose
part `post` is still to be written: it replaces `post` by a list `X` which, once its last
character is set to NUL, holds the first `k - 1` characters of the rest of `appname`. -/
theorem set_app_name_loop_copy (appname : List Int) :
    ∀ (k : Nat) (pre post : List Int) (name : name_buf), name.val = pre ++ post →
      post.length = k →
      ∃ X : List Int, (set_app_name_loop appname k pre.length name).val = pre ++ X
        ∧ X.length = k
        ∧ (1 ≤ k → c_str (X.set (k - 1) 0) = (c_str (appname.drop pre.length)).take (k - 1)) := by
  intro k
  induction k with
  | zero =>
    intro pre post name hn hl
    refine ⟨[], ?_, rfl, by omega⟩
    have : post = [] := List.length_eq_zero.mp hl
    simp [set_app_name_loop, hn, this]
  | succ k ih =>
    intro pre post name hn hl
    cases post with
    | nil => simp at hl
    | cons p post1 =>
      have hl1 : post1.length = k := by simpa using hl
      have h1 : (name.put pre.length (appname.getD pre.length 0)).val
          = pre ++ appname.getD pre.length 0 :: post1 := by
        rw [put_val, hn, set_at_append]
      by_cases hc : appname.getD pre.length 0 = 0
      · refine ⟨appname.getD pre.length 0 :: post1, ?_, by simp [hl1], ?_⟩
        · simp only [set_app_name_loop, hc, if_true]
          rw [← hc, h1]
        · intro _
          rw [drop_of_getD_zero appname pre.length hc, hc]
          cases k with
          | zero => simp [c_str_cons_zero]
          | succ k => simp [c_str_cons_zero]
      · obtain ⟨X, hX, hXl, hXc⟩ :=
          ih (pre ++ [appname.getD pre.length 0]) post1
            (name.put pre.length (appname.getD pre.length 0))
            (by rw [h1]; simp) hl1
        have hpl : (pre ++ [appname.getD pre.length 0]).length = pre.length + 1 := by simp
        rw [hpl] at hX hXc
        refine ⟨appname.getD pre.length 0 :: X, ?_, by simp [hXl], ?_⟩
        · simp only [set_app_name_loop, hc, if_false]
          rw [hX]; simp
        · intro _
          rw [drop_of_getD_ne appname pre.length hc, c_str_cons_ne _ _ hc]
          cases k with
          | zero =>
            have : X = [] := List.length_eq_zero.mp hXl
            simp [this, c_str_cons_zero]
          | succ k =>
            have := hXc (by omega)
            simp only [Nat.add_sub_cancel] at this ⊢
            rw [List.set_cons_succ, c_str_cons_ne _ _ hc, this, List.take_succ_cons]

/-- The name stored by `set_app_name` in a record: the first 63 characters of `appname`,
terminated by NUL within the 64 characters of the field. -/
theorem set_app_name_stored (r : app) (appname : List Int) :
    ∃ r2 : app, set_app_name (some r) (some appname) = some r2
      ∧ c_str r2.name.val = (c_str appname).take 63
      ∧ r2.name.val.length = 64
      ∧ r2.name.val.get? 63 = some 0 := by
  obtain ⟨X, hX, hXl, hXc⟩ :=
    set_app_name_loop_copy appname 64 [] r.name.val r.name (by simp) r.name.property
  refine ⟨{ r with name := (set_app_name_loop appname 64 0 r.name).put 63 0 }, rfl, ?_,
    ((set_app_name_loop appname 64 0 r.name).put 63 0).property, ?_⟩
  · have e : ((set_app_name_loop appname 64 0 r.name).put 63 0).val = X.set 63 0 := by
      rw [put_val]
      have : (set_app_name_loop appname 64 0 r.name).val = X := by simpa using hX
      rw [this]
    simp only [e]
    simpa using hXc (by omega)
  · simp only [put_val]
    have hl := (set_app_name_loop appname 64 0 r.name).property
    simp [List.getElem?_set, hl]

theorem get_app_name_occupied (apps : app_table) (j : Fin 64) (r : app) (h : apps j = some r) :
    get_app_name apps (j.val : Int) = some r.name.val := by
  have hj := j.isLt
  have hv : app_id_valid apps j.val = true := app_id_valid_occupied apps j (by simp [h])
  simp [get_app_name, to_u32_natCast j.val (by omega), hv, apps_at_fin, h]

/-- What `register_app` does when it returns an id of at least 1: the id is a slot `j`, and the
slot holds a record with the stored form of the name, while every other slot is unchanged. -/
theorem register_app_success (apps : app_table) (mem : Bool) (name : List Int) (id : Int)
    (hid : (register_app apps mem (some name)).1 = id) (h1 : 1 ≤ id) :
    ∃ (j : Fin 64) (r : app), (j.val : Int) = id ∧ 1 ≤ j.val
      ∧ (register_app apps mem (some name)).2 j = some r
      ∧ c_str r.name.val = (c_str name).take 63
      ∧ r.name.val.length = 64 ∧ r.name.val.get? 63 = some 0
      ∧ ∀ l : Fin 64, l ≠ j → (register_app apps mem (some name)).2 l = apps l := by
  rcases get_free_app_id_loop_char apps 63 1 (by omega) with ⟨e, _⟩ | ⟨j, hj, e, _, _⟩
  · rw [register_app_full apps mem (some name) e] at hid
    simp only at hid
    omega
  · cases mem with
    | false =>
      rw [register_app_no_mem apps (some name) j e] at hid
      omega
    | true =>
      rw [register_app_free apps (some name) j e] at hid ⊢
      obtain ⟨r0, hr0⟩ : ∃ r0, new_app true = some r0 := ⟨_, rfl⟩
      obtain ⟨r2, hr2, hc, hl, hz⟩ := set_app_name_stored r0 name
      refine ⟨j, r2, hid, hj, ?_, hc, hl, hz, ?_⟩
      · simp only [set_slot_same]
        rw [hr0, hr2]
      · intro l hl
        have hv : l.val ≠ j.val := fun h0 => hl (Fin.ext h0)
        simp only []
        rw [set_slot_other _ _ _ _ hv, set_slot_other _ _ _ _ hv]

theorem streq_stored (nm : List Int) (a : app) :
    streq (some nm) (some a.name.val) 255 = if c_str a.name.val = c_str nm then 1 else 0 := by
  rw [streq_spec nm a.name.val 255 (by omega), show (255 : Int).toNat = 255 from rfl]
  have hl : (c_str a.name.val).length ≤ 64 := by
    have := c_str_length_le a.name.val
    have := a.name.property
    omega
  by_cases e : c_str a.name.val = c_str nm
  · have h2 : (c_str nm).take 255 = c_str nm := by
      apply List.take_of_length_le
      rw [← e]
      omega
    rw [h2]
  · have h2 : ¬ (c_str a.name.val = (c_str nm).take 255) := by
      intro h0
      apply e
      have hlen : ((c_str nm).take 255).length ≤ 64 := by rw [← h0]; exact hl
      rw [List.length_take] at hlen
      rw [h0]
      apply List.take_of_length_le
      omega
    rw [if_neg e, if_neg h2]

/-- Result of the scan of `app_id_of_name` from id `i` on: either -1, and no record from `i` on
matches, or the id of a slot from `i` on whose record matches. -/
theorem app_id_of_name_loop_char (apps : app_table) (nm : Option (List Int)) :
    ∀ (k i : Nat), i + k = 64 →
      (app_id_of_name_loop apps nm k i = -1
        ∧ ∀ j : Fin 64, i ≤ j.val → ∀ a, apps j = some a → streq nm (some a.name.val) 255 = 0)
      ∨ ∃ j : Fin 64, i ≤ j.val ∧ app_id_of_name_loop apps nm k i = (j.val : Int)
          ∧ (∃ a, apps j = some a ∧ streq nm (some a.name.val) 255 ≠ 0)
          ∧ ∀ l : Fin 64, i ≤ l.val → l.val < j.val →
              ∀ a, apps l = some a → streq nm (some a.name.val) 255 = 0 := by
  intro k
  induction k with
  | zero =>
    intro i h
    refine Or.inl ⟨rfl, ?_⟩
    intro j hj
    have := j.isLt
    omega
  | succ k ih =>
    intro i h
    have hi : i < 64 := by omega
    have hat := apps_at_fin apps ⟨i, hi⟩
    simp only at hat
    have hstep : ∀ (hno : ∀ a, apps ⟨i, hi⟩ = some a → streq nm (some a.name.val) 255 = 0),
        (app_id_of_name_loop apps nm k (i + 1) = -1
          ∧ ∀ j : Fin 64, i ≤ j.val → ∀ a, apps j = some a →
              streq nm (some a.name.val) 255 = 0)
        ∨ ∃ j : Fin 64, i ≤ j.val ∧ app_id_of_name_loop apps nm k (i + 1) = (j.val : Int)
            ∧ (∃ a, apps j = some a ∧ streq nm (some a.name.val) 255 ≠ 0)
            ∧ ∀ l : Fin 64, i ≤ l.val → l.val < j.val →
                ∀ a, apps l = some a → streq nm (some a.name.val) 255 = 0 := by
      intro hno
      rcases ih (i + 1) (by omega) with ⟨e, hall⟩ | ⟨j, hj, e, hm, hmin⟩
      · refine Or.inl ⟨e, ?_⟩
        intro j hj a ha
        by_cases hji : j.val = i
        · have : j = ⟨i, hi⟩ := Fin.ext hji
          subst this
          exact hno a ha
        · exact hall j (by omega) a ha
      · refine Or.inr ⟨j, by omega, e, hm, ?_⟩
        intro l h1 h2 a ha
        by_cases hli : l.val = i
        · have : l = ⟨i, hi⟩ := Fin.ext hli
          subst this
          exact hno a ha
        · exact hmin l (by omega) h2 a ha
    simp only [app_id_of_name_loop, if_pos hi, hat]
    cases e : apps ⟨i, hi⟩ with
    | none =>
      simp only []
      exact hstep (fun a ha => by rw [e] at ha; cases ha)
    | some a =>
      simp only []
      by_cases hs : streq nm (some a.name.val) 255 = 0
      · simp only [hs, ne_eq, not_true_eq_false, if_false]
        exact hstep (fun a2 ha2 => by rw [e] at ha2; cases ha2; exact hs)
      · simp only [ne_eq, hs, not_false_eq_true, if_true]
        refine Or.inr ⟨⟨i, hi⟩, Nat.le_refl i, rfl, ⟨a, e, hs⟩, ?_⟩
        intro l h1 h2
        simp only at h2
        omega

/-! ## Claims about application names -/

/-- C14: for every non-null name, if `register_app(name)` returns an id of at least 1 then
`get_app_name(id)` returns the first 63 characters of the name (the whole name when it has at
most 63 characters), and the 64-character name field ends in NUL. -/
theorem register_app_name_round_trip (apps : app_table) (mem : Bool) (name : List Int)
    (id : Int) (hid : (register_app apps mem (some name)).1 = id) (h1 : 1 ≤ id) :
    ∃ stored : List Int,
      get_app_name (register_app apps mem (some name)).2 id = some stored
      ∧ c_str stored = (c_str name).take 63
      ∧ ((c_str name).length ≤ 63 → c_str stored = c_str name)
      ∧ stored.length = 64
      ∧ stored.get? 63 = some 0 := by
  obtain ⟨j, r, hj, _, hr, hc, hl, hz, _⟩ := register_app_success apps mem name id hid h1
  refine ⟨r.name.val, ?_, hc, ?_, hl, hz⟩
  · rw [← hj]
    exact get_app_name_occupied _ j r hr
  · intro h
    rw [hc, List.take_of_length_le h]

/-- Witness for C14: registering "ab" in the empty registry. -/
theorem register_app_name_round_trip_witness :
    ((register_app no_apps true (some [97, 98])).1 = 1 ∧ (1 : Int) ≤ 1)
    ∧ ∃ stored : List Int,
      get_app_name (register_app no_apps true (some [97, 98])).2 1 = some stored
      ∧ c_str stored = (c_str [97, 98]).take 63
      ∧ ((c_str [97, 98]).length ≤ 63 → c_str stored = c_str [97, 98])
      ∧ stored.length = 64
      ∧ stored.get? 63 = some 0 :=
  ⟨⟨by decide, by decide⟩,
    register_app_name_round_trip no_apps true [97, 98] 1 (by decide) (by decide)⟩

/-- C15, as stated, fails: in the empty registry, registering a name of 64 characters returns
the id 1, but `app_id_of_name` called with the same name immediately afterwards returns -1:
the stored name holds only the first 63 characters. -/
theorem app_id_of_name_counterexample :
    (∀ j : Fin 64, no_apps j = none)
    ∧ (register_app no_apps true (some (List.replicate 64 97))).1 = 1
    ∧ app_id_of_name (register_app no_apps true (some (List.replicate 64 97))).2
        (some (List.replicate 64 97)) = -1 :=
  ⟨fun _ => rfl, by decide, by decide⟩

/-- C15, amended: for every non-null name of at most 63 characters, if `register_app(name)`
returns an id of at least 1 in a registry in which no occupied slot already stores that name,
then `app_id_of_name(name)` called immediately afterwards returns that id; and
`app_id_of_name` returns -1 when no occupied slot 1..63 stores the given name. -/
theorem app_id_of_name_resolves (name : List Int) :
    (∀ (apps : app_table) (mem : Bool) (id : Int),
        (c_str name).length ≤ 63 →
        (register_app apps mem (some name)).1 = id → 1 ≤ id →
        (∀ (j : Fin 64) (a : app), apps j = some a → c_str a.name.val ≠ c_str name) →
        app_id_of_name (register_app apps mem (some name)).2 (some name) = id)
    ∧ (∀ apps : app_table,
        (∀ (j : Fin 64) (a : app), 1 ≤ j.val → apps j = some a →
          c_str a.name.val ≠ c_str name) →
        app_id_of_name apps (some name) = -1) := by
  constructor
  · intro apps mem id hlen hid h1 hnew
    obtain ⟨j, r, hj, hj1, hr, hc, _, _, hother⟩ :=
      register_app_success apps mem name id hid h1
    have hmatch : streq (some name) (some r.name.val) 255 ≠ 0 := by
      rw [streq_stored, hc, List.take_of_length_le hlen]
      simp
    have hno : ∀ (l : Fin 64) (a : app), l ≠ j →
        (register_app apps mem (some name)).2 l = some a →
        streq (some name) (some a.name.val) 255 = 0 := by
      intro l a hl ha
      rw [hother l hl] at ha
      rw [streq_stored]
      simp [hnew l a ha]
    rcases app_id_of_name_loop_char (register_app apps mem (some name)).2 (some name) 63 1
        (by omega) with ⟨_, hall⟩ | ⟨j2, _, e, ⟨a, ha, hs⟩, _⟩
    · exact absurd (hall j hj1 r hr) hmatch
    · have hjj : j2 = j := by
        by_contra hne
        exact hs (hno j2 a hne ha)
      subst hjj
      rw [← hj]
      exact e
  · intro apps hno
    rcases app_id_of_name_loop_char apps (some name) 63 1 (by omega) with
      ⟨e, _⟩ | ⟨j, hj, _, ⟨a, ha, hs⟩, _⟩
    · exact e
    · exfalso
      apply hs
      rw [streq_stored]
      simp [hno j a hj ha]

/-- Witness for C15 (amended): registering "ab" in the empty registry and resolving it, and
resolving "ab" in the empty registry. -/
theorem app_id_of_name_resolves_witness :
    app_id_of_name (register_app no_apps true (some [97, 98])).2 (some [97, 98]) = 1
    ∧ app_id_of_name no_apps (some [97, 98]) = -1 :=
  ⟨(app_id_of_name_resolves [97, 98]).1 no_apps true 1 (by decide) (by decide) (by decide)
      (fun j a h => by simp [no_apps] at h),
    (app_id_of_name_resolves [97, 98]).2 no_apps (fun j a _ h => by simp [no_apps] at h)⟩

end Dope

